import Mathlib

/-!
Shallow embedding of the strategy-simulator core (factor computation,
long/short backtest, summary metrics) and proofs about it.

Modelling conventions:
* A pandas frame column of floats that may contain NaN is embedded as
  `Option ℚ` (`none` = NaN); a frame is a `List` of row structures in frame
  order.  Machine floats are embedded as exact rationals; the only
  irrational values produced by the code are square roots (standard
  deviations, Spearman denominators), embedded via `Real.sqrt`.
* A pandas row index is embedded by pairing each row with its positional
  label: `(List.range p.length).zip p`.
* `Series.mean()` skips NaN and is NaN on an all-NaN/empty column
  (`optMean`); `Series.min()` is NaN on an empty column (`seriesMin`).
* Binary minima/maxima are spelled with explicit conditionals (`qmin`,
  `qmax`) so that concrete evaluations reduce in the kernel; they equal
  `min`/`max` (`qmin_eq_min`, `qmax_eq_max`).
-/

namespace StrategySim

/-- Binary minimum on ℚ, written as a conditional. -/
def qmin (a b : ℚ) : ℚ := if a ≤ b then a else b

/-- Binary maximum on ℚ, written as a conditional. -/
def qmax (a b : ℚ) : ℚ := if a ≤ b then b else a

/-- Pandas `Series.mean()` over a float column: NaN entries are skipped;
the mean of an empty or all-NaN column is NaN (`none`). -/
def optMean (l : List (Option ℚ)) : Option ℚ :=
  let vs := l.filterMap id
  if vs.length = 0 then none else some (vs.sum / vs.length)

/-- Pandas `Series.mean()` over a fully defined float column of length `n`:
`sum / n` (NaN, i.e. `none`, when the column is empty). -/
def smean (l : List ℚ) : Option ℚ :=
  if l.length = 0 then none else some (l.sum / l.length)

/-- Pandas `Series.var()` (sample variance, `ddof = 1`, the default):
NaN (`none`) when fewer than two observations. -/
def svar (l : List ℚ) : Option ℚ :=
  if l.length < 2 then none
  else some (((l.map (fun x => (x - l.sum / l.length) ^ 2)).sum) / ((l.length : ℚ) - 1))

/-- Pandas `Series.std()` (sample standard deviation, `ddof = 1`):
the square root of `svar`. -/
noncomputable def sstd (l : List ℚ) : Option ℝ :=
  (svar l).map (fun v => Real.sqrt (v : ℝ))

/-- `sharpe_ratio` from `src/metrics.py`:
`mu = returns.mean() * 252`, `sigma = returns.std() * 252 ** 0.5`,
`return mu / sigma if sigma > 0 else np.nan`.
A NaN `sigma` fails the `sigma > 0` comparison, so the result is NaN then
too; an undefined result is `none` (the float code never raises and the
guard keeps it from dividing by zero, so no infinity arises). -/
noncomputable def sharpe_ratio (l : List ℚ) : Option ℝ :=
  let mu : Option ℝ := (smean l).map (fun m => (m : ℝ) * 252)
  let sigma : Option ℝ := (sstd l).map (fun s => s * Real.sqrt 252)
  match mu, sigma with
  | some m, some s => if 0 < s then some (m / s) else none
  | _, _ => none

/-- Pandas `Series.cummax()`: running maximum of the values so far. -/
def runningMax : List ℚ → List ℚ
  | [] => []
  | x :: xs => x :: (runningMax xs).map (fun y => qmax x y)

/-- Pandas `Series.min()`: minimum of the values, NaN (`none`) when empty. -/
def seriesMin : List ℚ → Option ℚ
  | [] => none
  | x :: xs =>
    some (match seriesMin xs with
          | none => x
          | some m => qmin x m)

/-- Pandas `Series.max()`: maximum of the values, NaN (`none`) when empty. -/
def seriesMax : List ℚ → Option ℚ
  | [] => none
  | x :: xs =>
    some (match seriesMax xs with
          | none => x
          | some m => qmax x m)

/-- `max_drawdown` from `src/metrics.py`:
`roll_max = cum_returns.cummax()`, `dd = (cum_returns - roll_max) / roll_max`,
`return dd.min()`, under exact rational division. Rational division is total
(`x / 0 = 0`), so this model is faithful only where no running peak is exactly
`0`; `max_drawdown_float` keeps the float special values of that path, and
`max_drawdown_float_agrees` proves the two agree away from it. -/
def max_drawdown (cum_returns : List ℚ) : Option ℚ :=
  let roll_max := runningMax cum_returns
  let dd := (cum_returns.zip roll_max).map (fun x => (x.1 - x.2) / x.2)
  seriesMin dd

/-- `max_drawdown` from `strategy_simulator/metrics.py` (the second source
variant; its body is the same computation, under the same exact rational
division as `max_drawdown`). -/
def ssim_max_drawdown (cum_returns : List ℚ) : Option ℚ :=
  let roll_max := runningMax cum_returns
  let dd := (cum_returns.zip roll_max).map (fun x => (x.1 - x.2) / x.2)
  seriesMin dd

/-- Modelled from the spec's words for the alternative drawdown convention:
"the minimum of the raw running-max gap, not normalized" — the minimum of
`cum_return − running maximum`, without dividing by the peak. -/
def rawGapDrawdown (cum_returns : List ℚ) : Option ℚ :=
  let roll_max := runningMax cum_returns
  let dd := (cum_returns.zip roll_max).map (fun x => x.1 - x.2)
  seriesMin dd

/-- Prefix maximum: the maximum of the first `i + 1` elements (junk `0` when
the list is empty), used to state the index-wise drawdown characterization. -/
def prefixMax (l : List ℚ) (i : ℕ) : ℚ :=
  match l.take (i + 1) with
  | [] => 0
  | x :: xs => xs.foldl (fun a b => qmax a b) x

/-- A sentiment-panel row (`compute_factors` input): `ticker`, `date` and
the `avg_sentiment` column, which may be NaN. Tickers and dates are embedded
as naturals (only their ordering matters). -/
structure SentRow where
  ticker : ℕ
  date : ℕ
  avg_sentiment : Option ℚ
deriving DecidableEq, Inhabited

/-- The `sort_values(["ticker", "date"])` key order: by ticker, then date. -/
def sentLex (a b : SentRow) : Prop :=
  a.ticker < b.ticker ∨ (a.ticker = b.ticker ∧ a.date ≤ b.date)

instance : DecidableRel sentLex := fun a b => by
  unfold sentLex
  infer_instance

instance : IsTotal SentRow sentLex :=
  ⟨by
    intro a b
    unfold sentLex
    omega⟩

instance : IsTrans SentRow sentLex :=
  ⟨by
    intro a b c
    unfold sentLex
    omega⟩

/-- `df.sort_values(["ticker", "date"])` from `compute_factors`. -/
def sortSent (rows : List SentRow) : List SentRow :=
  List.insertionSort sentLex rows

/-- `groupby("ticker")["avg_sentiment"].shift(1)` at position `i` of a
ticker's date-ordered series: the previous observation's sentiment, NaN at
the group's first position. -/
def sentL1 (xs : List (Option ℚ)) (i : ℕ) : Option ℚ :=
  if i = 0 then none else xs.getD (i - 1) none

/-- The trailing window of 3 observations ending at position `i`
(`rolling(3)`, `min_periods` defaulting to the window size): defined only
when `i ≥ 2` and all three window entries are non-NaN. -/
def window3 (xs : List (Option ℚ)) (i : ℕ) : Option (ℚ × ℚ × ℚ) :=
  if 2 ≤ i then
    match xs.getD (i - 2) none, xs.getD (i - 1) none, xs.getD i none with
    | some a, some b, some c => some (a, b, c)
    | _, _, _ => none
  else none

/-- `rolling(3).mean()` at position `i`. -/
def mean3 (xs : List (Option ℚ)) (i : ℕ) : Option ℚ :=
  (window3 xs i).map (fun w => (w.1 + w.2.1 + w.2.2) / 3)

/-- The sample variance (`ddof = 1`) of the trailing window of 3, the square
of `rolling(3).std()`. -/
def var3 (xs : List (Option ℚ)) (i : ℕ) : Option ℚ :=
  (window3 xs i).map (fun w =>
    let m := (w.1 + w.2.1 + w.2.2) / 3
    ((w.1 - m) ^ 2 + (w.2.1 - m) ^ 2 + (w.2.2 - m) ^ 2) / 2)

/-- `rolling(3).std()` at position `i`: the square root of `var3`. -/
noncomputable def std3 (xs : List (Option ℚ)) (i : ℕ) : Option ℝ :=
  (var3 xs i).map (fun v => Real.sqrt (v : ℝ))

/-- `SENT_SHOCK = (avg_sentiment - SENT_MEAN3) / SENT_STD3` at position `i`.
When the window's standard deviation is exactly `0` all three window values
are equal, so the float numerator is `0` and the code computes `0/0 = NaN`:
that case is `none` here. A NaN operand also yields NaN. -/
noncomputable def shock (xs : List (Option ℚ)) (i : ℕ) : Option ℝ :=
  match xs.getD i none, mean3 xs i, var3 xs i with
  | some x, some m, some v =>
    if v = 0 then none else some (((x : ℝ) - (m : ℝ)) / Real.sqrt (v : ℝ))
  | _, _, _ => none

/-- `tickerSeries rows t`: ticker `t`'s `avg_sentiment` series in frame
order (after sorting, this is the group's date-ordered series on which the
grouped `shift`/`rolling` operate). -/
def tickerSeries (rows : List SentRow) (t : ℕ) : List (Option ℚ) :=
  (rows.filter (fun r => r.ticker == t)).map (fun r => r.avg_sentiment)

/-- The position of row `k` inside its ticker's group: the number of earlier
rows of the same ticker. -/
def posInTicker (rows : List SentRow) (k : ℕ) : ℕ :=
  ((rows.take k).filter (fun r => r.ticker == (rows.getD k default).ticker)).length

/-- A `compute_factors` output row: the original columns plus the derived
`SENT_L1`, `SENT_MEAN3`, `SENT_STD3` and `SENT_SHOCK` columns. -/
structure FactorRow where
  ticker : ℕ
  date : ℕ
  avg_sentiment : Option ℚ
  sent_l1 : Option ℚ
  sent_mean3 : Option ℚ
  sent_std3 : Option ℝ
  sent_shock : Option ℝ

/-- The column assignments of `compute_factors` on the sorted frame: each
row is decorated with the grouped `shift`/`rolling` values at its position
within its ticker's series. -/
noncomputable def addFactors (rows : List SentRow) : List FactorRow :=
  (List.range rows.length).map (fun k =>
    let r := rows.getD k default
    let xs := tickerSeries rows r.ticker
    let i := posInTicker rows k
    ⟨r.ticker, r.date, r.avg_sentiment, sentL1 xs i, mean3 xs i, std3 xs i, shock xs i⟩)

/-- `compute_factors` from `src/factors.py`: sort by ticker then date,
derive the lag and shock columns per ticker, and
`dropna(subset=["SENT_L1", "SENT_SHOCK"])`. -/
noncomputable def compute_factors (rows : List SentRow) : List FactorRow :=
  (addFactors (sortSent rows)).filter
    (fun fr => fr.sent_l1.isSome && fr.sent_shock.isSome)

/-- A joined input row for `run_longshort`: `date`, the factor column value
and the forward-return column value (either may be NaN). -/
structure JoinedRow where
  date : ℕ
  factor : Option ℚ
  fwd : Option ℚ
deriving DecidableEq, Inhabited

/-- The `dropna(subset=[factor_col, fwd_return_col])` row predicate. -/
def validRow (r : JoinedRow) : Bool := r.factor.isSome && r.fwd.isSome

/-- The frame with its row index: pandas row labels are the positions. -/
def indexed (p : List JoinedRow) : List (ℕ × JoinedRow) :=
  (List.range p.length).zip p

/-- The group `daily` of `groupby("date")` for key `d`: the rows with that
date, in frame order, with their row labels. -/
def dailyAt (p : List JoinedRow) (d : ℕ) : List (ℕ × JoinedRow) :=
  (indexed p).filter (fun x => x.2.date == d)

/-- `daily_val = daily.dropna(subset=[factor_col, fwd_return_col])`. -/
def dailyValAt (p : List JoinedRow) (d : ℕ) : List (ℕ × JoinedRow) :=
  (dailyAt p d).filter (fun x => validRow x.2)

/-- The valid factor values of date `d` (`daily_val[factor_col]`; all
entries are defined, and `Series.quantile` ignores NaN anyway). -/
def factorsAt (p : List JoinedRow) (d : ℕ) : List ℚ :=
  (dailyValAt p d).filterMap (fun x => x.2.factor)

/-- `Series.quantile(q)` with the default linear-interpolation method on a
non-empty series: with sorted values `s`, `n = s.length`, `h = q*(n-1)`,
`j = ⌊h⌋` and `g = h - j`, the value is `s[j] + g*(s[j+1] - s[j])`
(`s[j]` when `j` is the last position). Junk `0` on an empty series
(pandas gives NaN there; the backtest calls it only on groups with at
least `min_cross_section` valid rows). -/
def quantileLin (q : ℚ) (vs : List ℚ) : ℚ :=
  let s := List.insertionSort (· ≤ ·) vs
  let n := s.length
  let h : ℚ := q * ((n : ℚ) - 1)
  let j : ℕ := (Int.floor h).toNat
  let lo := s.getD j 0
  let hi := s.getD (j + 1) lo
  lo + (h - (j : ℚ)) * (hi - lo)

/-- The boolean mask `daily[factor_col] >= q_high` at one row: a NaN factor
compares false. -/
def geMask (q : ℚ) (r : JoinedRow) : Bool :=
  match r.factor with
  | none => false
  | some f => decide (q ≤ f)

/-- The boolean mask `daily[factor_col] <= q_low` at one row. -/
def leMask (q : ℚ) (r : JoinedRow) : Bool :=
  match r.factor with
  | none => false
  | some f => decide (f ≤ q)

/-- `sub[mask]` where `mask` is a boolean Series computed over the rows of
`all`: pandas aligns the mask with `sub` on the row labels, so a row of
`sub` is kept exactly when the mask is true at its label. -/
def applyMask (all sub : List (ℕ × JoinedRow)) (m : JoinedRow → Bool) :
    List (ℕ × JoinedRow) :=
  sub.filter (fun x =>
    match (all.map (fun y => (y.1, m y.2))).lookup x.1 with
    | some b => b
    | none => false)

/-- `q_low = daily_val[factor_col].quantile(0.3)`. -/
def qLowAt (p : List JoinedRow) (d : ℕ) : ℚ := quantileLin (3 / 10) (factorsAt p d)

/-- `q_high = daily_val[factor_col].quantile(0.7)`. -/
def qHighAt (p : List JoinedRow) (d : ℕ) : ℚ := quantileLin (7 / 10) (factorsAt p d)

/-- `longs = daily_val[daily[factor_col] >= q_high]`. -/
def longsAt (p : List JoinedRow) (d : ℕ) : List (ℕ × JoinedRow) :=
  applyMask (dailyAt p d) (dailyValAt p d) (geMask (qHighAt p d))

/-- `shorts = daily_val[daily[factor_col] <= q_low]`. -/
def shortsAt (p : List JoinedRow) (d : ℕ) : List (ℕ × JoinedRow) :=
  applyMask (dailyAt p d) (dailyValAt p d) (leMask (qLowAt p d))

/-- One `groupby("date")` iteration of `run_longshort`: skip the date when
fewer than 10 valid rows remain (`max_day = 10`) or when either bucket is
empty; otherwise emit `{date, longs[fwd].mean() - shorts[fwd].mean()}`.
Both bucket means are defined whenever this arm is reached (each bucket is
non-empty and holds only valid rows), so the fall-through arm — where the
float code would record a NaN return — is unreachable. -/
def processDate (p : List JoinedRow) (d : ℕ) : Option (ℕ × ℚ) :=
  if (dailyValAt p d).length < 10 then none
  else if (longsAt p d).isEmpty || (shortsAt p d).isEmpty then none
  else
    match optMean ((longsAt p d).map (fun x => x.2.fwd)),
        optMean ((shortsAt p d).map (fun x => x.2.fwd)) with
    | some a, some b => some (d, a - b)
    | _, _ => none

/-- The `groupby("date")` keys: the distinct dates, ascending. -/
def panelDates (p : List JoinedRow) : List ℕ :=
  List.insertionSort (· ≤ ·) (p.map (fun r => r.date)).dedup

/-- The `results` list built by the per-date loop (date-ascending, as
`groupby` iterates keys in sorted order; `sort_index()` then keeps it). -/
def dailyResults (p : List JoinedRow) : List (ℕ × ℚ) :=
  (panelDates p).filterMap (processDate p)

/-- `(1 + strategy_return).cumprod()`, threading the running product. -/
def cumFrom (acc : ℚ) : List ℚ → List ℚ
  | [] => []
  | r :: rest => (acc * (1 + r)) :: cumFrom (acc * (1 + r)) rest

/-- One row of the returned daily frame. -/
structure DailyRec where
  date : ℕ
  strategy_return : ℚ
  cum_return : ℚ
deriving DecidableEq

/-- Spearman rank of `x` within `vs`, with average ranks on ties. -/
def rankIn (vs : List ℚ) (x : ℚ) : ℚ :=
  (vs.countP (fun y => decide (y < x)) : ℚ)
    + ((vs.countP (fun y => decide (y = x)) : ℚ) + 1) / 2

/-- The rank vector of a sample. -/
def ranks (vs : List ℚ) : List ℚ := vs.map (rankIn vs)

/-- Population variance (the `1/n` normalizations cancel in the
correlation quotient, so the population form suffices). -/
def pvar (vs : List ℚ) : ℚ :=
  ((vs.map (fun x => (x - vs.sum / vs.length) ^ 2)).sum) / vs.length

/-- Population covariance of two aligned samples. -/
def pcov (xs ys : List ℚ) : ℚ :=
  (((xs.zip ys).map (fun p => (p.1 - xs.sum / xs.length) * (p.2 - ys.sum / ys.length))).sum)
    / xs.length

/-- `scipy.stats.spearmanr` on paired samples: the Pearson correlation of
the two rank vectors; NaN when either rank vector is constant. -/
noncomputable def spearman (pairs : List (ℚ × ℚ)) : Option ℝ :=
  let rx := ranks (pairs.map (fun p => p.1))
  let ry := ranks (pairs.map (fun p => p.2))
  if pvar rx = 0 ∨ pvar ry = 0 then none
  else some ((pcov rx ry : ℝ) / Real.sqrt ((pvar rx : ℝ) * (pvar ry : ℝ)))

/-- `compute_ic` from `src/metrics.py`: align the two columns row-wise,
drop pairs with a NaN, require at least 5 pairs, Spearman correlation. -/
noncomputable def compute_ic (factor fwd : List (Option ℚ)) : Option ℝ :=
  let aligned := (factor.zip fwd).filterMap (fun p =>
    match p.1, p.2 with
    | some a, some b => some (a, b)
    | _, _ => none)
  if aligned.length < 5 then none else spearman aligned

/-- The metrics dictionary `{IC, Sharpe, MaxDD}`. -/
structure Metrics where
  IC : Option ℝ
  Sharpe : Option ℝ
  MaxDD : Option ℚ

/-- `run_longshort` from `src/backtest.py`. The daily frame is the list of
`{date, strategy_return, cum_return}` records, empty when no date survives
(the code then builds an empty frame that still carries the
`strategy_return` and `cum_return` columns — here the empty list of
`DailyRec`); `Sharpe`/`MaxDD` are NaN in that case, and `IC` is always
computed from the full joined input's two raw columns. -/
noncomputable def run_longshort (p : List JoinedRow) : List DailyRec × Metrics :=
  let res := dailyResults p
  let srs := res.map (fun x => x.2)
  let cums := cumFrom 1 srs
  let daily : List DailyRec := (res.zip cums).map (fun x => ⟨x.1.1, x.1.2, x.2⟩)
  let sharpe : Option ℝ := if res.isEmpty then none else sharpe_ratio srs
  let mdd : Option ℚ := if res.isEmpty then none else max_drawdown cums
  let ic := compute_ic (p.map (fun r => r.factor)) (p.map (fun r => r.fwd))
  (daily, ⟨ic, sharpe, mdd⟩)

/-- Modelled from the spec: the configurable per-date selection the spec
describes ("Configuration (fixed defaults, overridable):
`min_cross_section = 10`, `short_quantile = 0.3`, `long_quantile = 0.7`").
The source has no such parameters; its loop is this engine with the
hard-coded constants. -/
def processDateCfg (mcs : ℕ) (qlo qhi : ℚ) (p : List JoinedRow) (d : ℕ) :
    Option (ℕ × ℚ) :=
  if (dailyValAt p d).length < mcs then none
  else
    let qh := quantileLin qhi (factorsAt p d)
    let ql := quantileLin qlo (factorsAt p d)
    let longs := applyMask (dailyAt p d) (dailyValAt p d) (geMask qh)
    let shorts := applyMask (dailyAt p d) (dailyValAt p d) (leMask ql)
    if longs.isEmpty || shorts.isEmpty then none
    else
      match optMean (longs.map (fun x => x.2.fwd)),
          optMean (shorts.map (fun x => x.2.fwd)) with
      | some a, some b => some (d, a - b)
      | _, _ => none

/-- Modelled from the spec: the daily series of the configurable engine. -/
def dailyResultsCfg (mcs : ℕ) (qlo qhi : ℚ) (p : List JoinedRow) : List (ℕ × ℚ) :=
  (panelDates p).filterMap (processDateCfg mcs qlo qhi p)

/-- The long bucket computed directly on the valid rows (the mask evaluated
on `daily_val` itself rather than aligned from `daily`). -/
def longsDirect (p : List JoinedRow) (d : ℕ) : List (ℕ × JoinedRow) :=
  (dailyValAt p d).filter (fun x => geMask (qHighAt p d) x.2)

/-- The short bucket computed directly on the valid rows. -/
def shortsDirect (p : List JoinedRow) (d : ℕ) : List (ℕ × JoinedRow) :=
  (dailyValAt p d).filter (fun x => leMask (qLowAt p d) x.2)

/-- The equal-weight mean of the forward returns of a bucket (every bucket
row is valid, so the NaN-skipping pandas mean is the plain mean). -/
def meanFwd (rows : List (ℕ × JoinedRow)) : ℚ :=
  ((rows.filterMap (fun x => x.2.fwd)).sum) / ((rows.filterMap (fun x => x.2.fwd)).length)

/-- The concrete ten-row panel used by witnesses: one date `0`, factor and
forward return both `i` for `i = 1, …, 10`. -/
def P10 : List JoinedRow :=
  [⟨0, some 1, some 1⟩, ⟨0, some 2, some 2⟩, ⟨0, some 3, some 3⟩,
   ⟨0, some 4, some 4⟩, ⟨0, some 5, some 5⟩, ⟨0, some 6, some 6⟩,
   ⟨0, some 7, some 7⟩, ⟨0, some 8, some 8⟩, ⟨0, some 9, some 9⟩,
   ⟨0, some 10, some 10⟩]

/-- The concrete nine-row panel (below the 10-row cutoff): one date `0`,
factor and forward return both `i` for `i = 1, …, 9`. -/
def P9 : List JoinedRow :=
  [⟨0, some 1, some 1⟩, ⟨0, some 2, some 2⟩, ⟨0, some 3, some 3⟩,
   ⟨0, some 4, some 4⟩, ⟨0, some 5, some 5⟩, ⟨0, some 6, some 6⟩,
   ⟨0, some 7, some 7⟩, ⟨0, some 8, some 8⟩, ⟨0, some 9, some 9⟩]

/-- The concrete five-row panel: one date `0`, factor and forward return
both `i` for `i = 1, …, 5`; below the cutoff, but enough pairs for IC. -/
def P5 : List JoinedRow :=
  [⟨0, some 1, some 1⟩, ⟨0, some 2, some 2⟩, ⟨0, some 3, some 3⟩,
   ⟨0, some 4, some 4⟩, ⟨0, some 5, some 5⟩]

/-- A float value that is not NaN: a signed infinity or a finite rational.
NaN is `none` at the `Option FloatVal` level. Rounding never matters here:
the only float special values the drawdown expression can produce come from
its divisions by an exactly-zero running peak, and those are modelled
exactly. -/
inductive FloatVal where
  | ninf : FloatVal
  | fin : ℚ → FloatVal
  | pinf : FloatVal
deriving DecidableEq

/-- Float minimum of two non-NaN values: `-inf` absorbs, `+inf` yields the
other operand, finite values compare as rationals. -/
def fvalMin (a b : FloatVal) : FloatVal :=
  match a, b with
  | .ninf, _ => .ninf
  | _, .ninf => .ninf
  | .pinf, c => c
  | c, .pinf => c
  | .fin x, .fin y => .fin (qmin x y)

/-- Pandas `Series.min()` over a float column that may hold NaN and
infinities: NaN entries are skipped (`skipna=True`, the default); an empty
or all-NaN column gives NaN. -/
def seriesMinF : List (Option FloatVal) → Option FloatVal
  | [] => none
  | none :: xs => seriesMinF xs
  | some v :: xs =>
    some (match seriesMinF xs with
          | none => v
          | some m => fvalMin v m)

/-- One position of the float quotient `(cum_returns - roll_max) / roll_max`:
when the running peak is exactly `0` the numerator is the value itself and
IEEE division gives `0/0 = NaN`, `negative/0 = -inf`, `positive/0 = +inf`
(the positive case cannot arise from a running maximum); otherwise the
quotient is exact. -/
def ddEntryF (c m : ℚ) : Option FloatVal :=
  if m = 0 then
    (if c = 0 then none else if c < 0 then some FloatVal.ninf else some FloatVal.pinf)
  else some (FloatVal.fin ((c - m) / m))

/-- `max_drawdown` from `src/metrics.py` under float special-value
semantics: `dd = (cum_returns - cummax) / cummax` computed entrywise with
`ddEntryF`, then `dd.min()` with NaN skipped (`seriesMinF`). -/
def max_drawdown_float (cum_returns : List ℚ) : Option FloatVal :=
  seriesMinF ((cum_returns.zip (runningMax cum_returns)).map (fun p => ddEntryF p.1 p.2))

theorem qmin_eq_min (a b : ℚ) : qmin a b = min a b := by
  rw [qmin, min_def]

theorem qmax_eq_max (a b : ℚ) : qmax a b = max a b := by
  rw [qmax, max_def]

theorem runningMax_length (l : List ℚ) : (runningMax l).length = l.length := by
  induction l with
  | nil => rfl
  | cons x xs ih => simp [runningMax, ih]

theorem seriesMin_isSome (l : List ℚ) (h : l ≠ []) : (seriesMin l).isSome := by
  cases l with
  | nil => exact absurd rfl h
  | cons x xs => simp [seriesMin]

theorem seriesMin_eq_none (l : List ℚ) : seriesMin l = none ↔ l = [] := by
  cases l with
  | nil => simp [seriesMin]
  | cons x xs => simp [seriesMin]

theorem seriesMin_le (l : List ℚ) (x : ℚ) (hx : x ∈ l) :
    ∀ m, seriesMin l = some m → m ≤ x := by
  induction l with
  | nil => simp at hx
  | cons y ys ih =>
    intro m hm
    simp only [seriesMin] at hm
    cases hys : seriesMin ys with
    | none =>
      have hnil : ys = [] := (seriesMin_eq_none ys).mp hys
      subst hnil
      simp [seriesMin] at hm
      simp at hx
      simp [← hm, hx]
    | some k =>
      rw [hys] at hm
      have hmk : m = qmin y k := by
        exact (Option.some.injEq _ _).mp hm.symm
      rw [hmk, qmin_eq_min]
      rcases List.mem_cons.mp hx with h | h
      · rw [← h]; exact min_le_left _ _
      · exact le_trans (min_le_right _ _) (ih h k hys)

theorem seriesMin_mem (l : List ℚ) (m : ℚ) (hm : seriesMin l = some m) : m ∈ l := by
  induction l generalizing m with
  | nil => simp [seriesMin] at hm
  | cons y ys ih =>
    simp only [seriesMin] at hm
    cases hys : seriesMin ys with
    | none =>
      rw [hys] at hm
      have : y = m := (Option.some.injEq _ _).mp hm
      simp [← this]
    | some k =>
      rw [hys] at hm
      have hmk : qmin y k = m := (Option.some.injEq _ _).mp hm
      rw [qmin_eq_min] at hmk
      rcases min_cases y k with ⟨he, _⟩ | ⟨he, _⟩
      · rw [← hmk, he]; simp
      · rw [← hmk, he]
        exact List.mem_cons_of_mem _ (ih k hys)

theorem foldl_max_comm (ys : List ℚ) : ∀ a b : ℚ,
    ys.foldl (fun u v => max u v) (max a b) = max a (ys.foldl (fun u v => max u v) b) := by
  induction ys with
  | nil => intro a b; rfl
  | cons c cs ih =>
    intro a b
    simp only [List.foldl_cons]
    rw [max_assoc, ih]

theorem foldl_qmax_comm (ys : List ℚ) (a b : ℚ) :
    ys.foldl (fun u v => qmax u v) (qmax a b) = qmax a (ys.foldl (fun u v => qmax u v) b) := by
  simp only [qmax_eq_max]
  exact foldl_max_comm ys a b

theorem prefixMax_zero (x : ℚ) (xs : List ℚ) : prefixMax (x :: xs) 0 = x := by
  simp [prefixMax]

theorem prefixMax_succ (x : ℚ) (xs : List ℚ) (i : ℕ) (h : i < xs.length) :
    prefixMax (x :: xs) (i + 1) = qmax x (prefixMax xs i) := by
  have hne : xs.take (i + 1) ≠ [] := by
    cases xs with
    | nil => simp at h
    | cons y ys => simp
  cases htake : xs.take (i + 1) with
  | nil => exact absurd htake hne
  | cons y ys =>
    simp only [prefixMax, List.take_succ_cons, htake]
    rw [List.foldl_cons, foldl_qmax_comm]

theorem runningMax_getD (l : List ℚ) : ∀ i, i < l.length →
    (runningMax l).getD i 0 = prefixMax l i := by
  induction l with
  | nil => intro i hi; simp at hi
  | cons x xs ih =>
    intro i hi
    cases i with
    | zero => simp [runningMax, prefixMax]
    | succ i =>
      have hxs : i < xs.length := by simpa using hi
      have hrm : i < (runningMax xs).length := by rw [runningMax_length]; exact hxs
      rw [runningMax, List.getD_cons_succ, prefixMax_succ x xs i hxs]
      rw [List.getD_eq_getElem _ _ (by simpa using hrm), List.getElem_map]
      rw [← List.getD_eq_getElem _ (0 : ℚ) hrm, ih i hxs]

theorem map_zip_eq_range (f : ℚ → ℚ → ℚ) : ∀ (l m : List ℚ), l.length = m.length →
    (l.zip m).map (fun p => f p.1 p.2)
      = (List.range l.length).map (fun i => f (l.getD i 0) (m.getD i 0)) := by
  intro l
  induction l with
  | nil => intro m _; simp
  | cons x xs ih =>
    intro m hm
    cases m with
    | nil => simp at hm
    | cons y ys =>
      have hlen : xs.length = ys.length := by simpa using hm
      simp only [List.zip_cons_cons, List.map_cons, List.length_cons,
        List.range_succ_eq_map, List.map_map]
      rw [ih ys hlen]
      simp [Function.comp]

theorem map_zip_self {β : Type} (f : ℚ → ℚ → β) : ∀ l : List ℚ,
    (l.zip l).map (fun p => f p.1 p.2) = l.map (fun x => f x x) := by
  intro l
  induction l with
  | nil => rfl
  | cons x xs ih => simp [List.zip_cons_cons, ih]

theorem map_qmax_of_le (x : ℚ) : ∀ xs : List ℚ, (∀ y ∈ xs, x ≤ y) →
    xs.map (fun y => qmax x y) = xs := by
  intro xs
  induction xs with
  | nil => intro _; rfl
  | cons y ys ih =>
    intro h
    simp only [List.map_cons]
    rw [qmax_eq_max, max_eq_right (h y (List.mem_cons_self _ _)),
      ih (fun z hz => h z (List.mem_cons_of_mem _ hz))]

theorem runningMax_of_pairwise_le (l : List ℚ) (h : l.Pairwise (· ≤ ·)) :
    runningMax l = l := by
  induction l with
  | nil => rfl
  | cons x xs ih =>
    rw [List.pairwise_cons] at h
    rw [runningMax, ih h.2, map_qmax_of_le x xs h.1]

/-- C7 counterexample: on the series `[2, 1]` both `max_drawdown`
implementations return `-1/2` (the gap divided by the running peak `2`),
while the raw (unnormalized) gap form would return `-1`; so the claim that
the source computes the raw form is false. -/
theorem C7_counterexample :
    max_drawdown [(2 : ℚ), 1] = some (-(1 / 2))
    ∧ ssim_max_drawdown [(2 : ℚ), 1] = some (-(1 / 2))
    ∧ rawGapDrawdown [(2 : ℚ), 1] = some (-1)
    ∧ max_drawdown [(2 : ℚ), 1] ≠ rawGapDrawdown [(2 : ℚ), 1] := by
  refine ⟨?_, ?_, ?_, ?_⟩ <;>
    simp [max_drawdown, ssim_max_drawdown, rawGapDrawdown, runningMax, seriesMin,
      qmin, qmax] <;> norm_num

/-- C7 (amended): both `max_drawdown` implementations compute the normalized
(divided-by-running-peak) form: they agree with each other, and the result
is exactly the minimum over positions `i` of
`(cum_return[i] − prefix-max[i]) / prefix-max[i]`. -/
theorem C7_normalized_form :
    (∀ l : List ℚ, ssim_max_drawdown l = max_drawdown l)
    ∧ ∀ l : List ℚ, max_drawdown l
        = seriesMin ((List.range l.length).map
            (fun i => (l.getD i 0 - prefixMax l i) / prefixMax l i)) := by
  constructor
  · intro l; rfl
  · intro l
    rw [max_drawdown,
      map_zip_eq_range (fun a b => (a - b) / b) l (runningMax l) (runningMax_length l).symm]
    congr 1
    refine List.map_congr_left ?_
    intro i hi
    rw [runningMax_getD l i (List.mem_range.mp hi)]

theorem sstd_nonneg (l : List ℚ) (s : ℝ) (h : sstd l = some s) : 0 ≤ s := by
  cases hv : svar l with
  | none => simp [sstd, hv] at h
  | some v =>
    simp [sstd, hv] at h
    rw [← h]
    exact Real.sqrt_nonneg _

/-- C6: `sharpe_ratio` returns `(mean × 252) / (sample std × √252)` and is
undefined (`none`, never an exception or an infinity) exactly when the
sample standard deviation is undefined or is `0`: the guard `sigma > 0`
rejects both a NaN `sigma` and a zero `sigma`. -/
theorem C6_sharpe_ratio_guard :
    ∀ l : List ℚ,
      (sharpe_ratio l = none ↔ sstd l = none ∨ sstd l = some 0)
      ∧ (∀ m s, smean l = some m → sstd l = some s → 0 < s →
          sharpe_ratio l = some ((m : ℝ) * 252 / (s * Real.sqrt 252))) := by
  intro l
  have h252 : (0 : ℝ) < Real.sqrt 252 := Real.sqrt_pos.mpr (by norm_num)
  constructor
  · cases hm : smean l with
    | none =>
      have hl : l.length = 0 := by
        by_contra hne
        simp [smean, hne] at hm
      have hsv : svar l = none := by
        simp [svar]
        omega
      have hst : sstd l = none := by simp [sstd, hsv]
      simp [sharpe_ratio, hm, hst]
    | some m =>
      cases hst : sstd l with
      | none => simp [sharpe_ratio, hm, hst]
      | some s =>
        have hs0 : 0 ≤ s := sstd_nonneg l s hst
        by_cases hpos : 0 < s
        · have hsig : 0 < s * Real.sqrt 252 := mul_pos hpos h252
          simp [sharpe_ratio, hm, hst, hsig]
          exact ne_of_gt hpos
        · have hseq : s = 0 := le_antisymm (not_lt.mp hpos) hs0
          subst hseq
          simp [sharpe_ratio, hm, hst]
  · intro m s hm hst hs
    have hsig : 0 < s * Real.sqrt 252 := mul_pos hs h252
    simp [sharpe_ratio, hm, hst, hsig]

/-- Witness for C6 at the series `[0, 1]`: the mean is `1/2`, the sample
standard deviation is `√(1/2) > 0`, and the Sharpe ratio is the stated
quotient. -/
theorem C6_witness :
    smean [(0 : ℚ), 1] = some (1 / 2)
    ∧ sstd [(0 : ℚ), 1] = some (Real.sqrt (1 / 2))
    ∧ (0 : ℝ) < Real.sqrt (1 / 2)
    ∧ sharpe_ratio [(0 : ℚ), 1]
        = some (((1 / 2 : ℚ) : ℝ) * 252 / (Real.sqrt (1 / 2) * Real.sqrt 252)) := by
  have h1 : smean [(0 : ℚ), 1] = some (1 / 2) := by
    simp [smean]
  have hv : svar [(0 : ℚ), 1] = some (1 / 2) := by
    simp [svar]
    norm_num
  have h2 : sstd [(0 : ℚ), 1] = some (Real.sqrt (1 / 2)) := by
    simp [sstd, hv]
  have h3 : (0 : ℝ) < Real.sqrt (1 / 2) := Real.sqrt_pos.mpr (by norm_num)
  exact ⟨h1, h2, h3,
    (C6_sharpe_ratio_guard [(0 : ℚ), 1]).2 (1 / 2) (Real.sqrt (1 / 2)) h1 h2 h3⟩

theorem var3_nonneg (xs : List (Option ℚ)) (i : ℕ) (v : ℚ)
    (h : var3 xs i = some v) : 0 ≤ v := by
  cases hw : window3 xs i with
  | none => simp [var3, hw] at h
  | some w =>
    simp [var3, hw] at h
    rw [← h]
    positivity

theorem mean3_isSome_of_var3 (xs : List (Option ℚ)) (i : ℕ) (v : ℚ)
    (h : var3 xs i = some v) :
    mean3 xs i = some ((window3 xs i).elim 0 (fun w => (w.1 + w.2.1 + w.2.2) / 3)) := by
  cases hw : window3 xs i with
  | none => simp [var3, hw] at h
  | some w => simp [mean3, hw]

theorem window3_eq_some (xs : List (Option ℚ)) (i : ℕ) (w : ℚ × ℚ × ℚ)
    (h : window3 xs i = some w) :
    2 ≤ i ∧ xs.getD (i - 2) none = some w.1 ∧ xs.getD (i - 1) none = some w.2.1
      ∧ xs.getD i none = some w.2.2 := by
  unfold window3 at h
  split at h
  case isTrue h2 =>
    cases ha : xs.getD (i - 2) none <;> cases hb : xs.getD (i - 1) none <;>
      cases hc : xs.getD i none <;> rw [ha, hb, hc] at h <;> simp at h
    refine ⟨h2, ?_, ?_, ?_⟩ <;> simp [ha, hb, hc, ← h]
  case isFalse => simp at h

theorem shock_of_small (xs : List (Option ℚ)) (i : ℕ) (h : i < 2) :
    shock xs i = none := by
  have hw : window3 xs i = none := by
    unfold window3
    rw [if_neg (by omega)]
  have hv : var3 xs i = none := by simp [var3, hw]
  cases hx : xs.getD i none <;> cases hm : mean3 xs i <;>
    simp [shock, hx, hm, hv]

theorem shock_none_iff (xs : List (Option ℚ)) (i : ℕ) :
    shock xs i = none ↔ std3 xs i = none ∨ std3 xs i = some 0 := by
  cases hv : var3 xs i with
  | none =>
    have hstd : std3 xs i = none := by simp [std3, hv]
    cases hx : xs.getD i none <;> cases hm : mean3 xs i <;>
      simp [shock, hx, hm, hv, hstd]
  | some v =>
    have hv0 : 0 ≤ v := var3_nonneg xs i v hv
    cases hw : window3 xs i with
    | none => simp [var3, hw] at hv
    | some w =>
      obtain ⟨_, _, _, hx⟩ := window3_eq_some xs i w hw
      have hm : mean3 xs i = some ((w.1 + w.2.1 + w.2.2) / 3) := by simp [mean3, hw]
      have hstd : std3 xs i = some (Real.sqrt (v : ℝ)) := by simp [std3, hv]
      rw [hstd]
      constructor
      · intro hnone
        simp only [shock, hx, hm, hv] at hnone
        split at hnone
        · right
          rename_i hveq
          rw [hveq]
          simp
        · simp at hnone
      · intro hrhs
        rcases hrhs with hrhs | hrhs
        · simp at hrhs
        · have hsq : Real.sqrt (v : ℝ) = 0 := by
            exact (Option.some.injEq _ _).mp hrhs
          have : (v : ℝ) = 0 := by
            have := (Real.sqrt_eq_zero (by exact_mod_cast hv0)).mp hsq
            exact this
          have hveq : v = 0 := by exact_mod_cast this
          subst hveq
          unfold shock
          rw [hx, hm, hv]
          simp

theorem shock_val (xs : List (Option ℚ)) (i : ℕ) (m v x : ℚ)
    (hm : mean3 xs i = some m) (hv : var3 xs i = some v) (hv0 : v ≠ 0)
    (hx : xs.getD i none = some x) :
    shock xs i = some (((x : ℝ) - (m : ℝ)) / Real.sqrt (v : ℝ)) := by
  unfold shock
  rw [hx, hm, hv]
  simp [hv0]

theorem sortSent_sorted (rows : List SentRow) : List.Sorted sentLex (sortSent rows) :=
  List.sorted_insertionSort sentLex rows

theorem sortSent_perm (rows : List SentRow) : List.Perm (sortSent rows) rows :=
  List.perm_insertionSort sentLex rows

theorem tickerGroup_dates_sorted (rows : List SentRow) (t : ℕ)
    (h : List.Sorted sentLex rows) :
    List.Sorted (· ≤ ·) ((rows.filter (fun r => r.ticker == t)).map (fun r => r.date)) := by
  rw [List.Sorted, List.pairwise_map]
  have hsub : List.Pairwise sentLex (rows.filter (fun r => r.ticker == t)) :=
    h.sublist (List.filter_sublist rows)
  refine hsub.imp_of_mem ?_
  intro a b ha hb hab
  have hat : a.ticker = t := by
    simpa using (List.mem_filter.mp ha).2
  have hbt : b.ticker = t := by
    simpa using (List.mem_filter.mp hb).2
  unfold sentLex at hab
  omega

/-- C2: `compute_factors` sorts by ticker then date (each ticker's series is
then in date order); per ticker the lagged signal at position `i` is the
previous observation's sentiment (`none` at the first position) and the
shock signal is `(sentiment − trailing-3 mean) / trailing-3 sample std`
with a fixed window of 3 and no minimum-periods relaxation (positions `0`
and `1` are undefined, and the shock is undefined exactly when the std is
undefined or `0`); rows with either derived field undefined are dropped,
so every output row has both defined. -/
theorem C2_compute_factors :
    (∀ rows : List SentRow,
        List.Sorted sentLex (sortSent rows) ∧ List.Perm (sortSent rows) rows
          ∧ compute_factors rows
              = (addFactors (sortSent rows)).filter
                  (fun fr => fr.sent_l1.isSome && fr.sent_shock.isSome))
    ∧ (∀ rows : List SentRow, ∀ fr ∈ compute_factors rows,
        fr.sent_l1.isSome ∧ fr.sent_shock.isSome)
    ∧ (∀ xs : List (Option ℚ), sentL1 xs 0 = none)
    ∧ (∀ (xs : List (Option ℚ)) (i : ℕ), 0 < i → sentL1 xs i = xs.getD (i - 1) none)
    ∧ (∀ (xs : List (Option ℚ)) (i : ℕ), i < 2 → shock xs i = none)
    ∧ (∀ (xs : List (Option ℚ)) (i : ℕ),
        shock xs i = none ↔ std3 xs i = none ∨ std3 xs i = some 0)
    ∧ (∀ (xs : List (Option ℚ)) (i : ℕ) (m v x : ℚ),
        mean3 xs i = some m → var3 xs i = some v → v ≠ 0 →
        xs.getD i none = some x →
        shock xs i = some (((x : ℝ) - (m : ℝ)) / Real.sqrt (v : ℝ))) := by
  refine ⟨?_, ?_, ?_, ?_, ?_, shock_none_iff, shock_val⟩
  · intro rows
    exact ⟨sortSent_sorted rows, sortSent_perm rows, rfl⟩
  · intro rows fr hfr
    have := (List.mem_filter.mp hfr).2
    constructor
    · exact (Bool.and_eq_true _ _).mp this |>.1
    · exact (Bool.and_eq_true _ _).mp this |>.2
  · intro xs
    simp [sentL1]
  · intro xs i hi
    simp [sentL1, Nat.pos_iff_ne_zero.mp hi]
  · intro xs i hi
    exact shock_of_small xs i hi

/-- Witness for C2 at concrete inputs: for the series `[0, 1, 3]`,
position `1` has lag `some 0` (`0 < 1` discharged), position `1` has
undefined shock (`1 < 2`), and position `2` has mean `4/3`, variance `7/3`
and shock `(3 − 4/3)/√(7/3)`. -/
theorem C2_witness :
    sentL1 [some (0 : ℚ), some 1, some 3] 1 = some 0
    ∧ shock [some (0 : ℚ), some 1, some 3] 1 = none
    ∧ mean3 [some (0 : ℚ), some 1, some 3] 2 = some (4 / 3)
    ∧ var3 [some (0 : ℚ), some 1, some 3] 2 = some (7 / 3)
    ∧ shock [some (0 : ℚ), some 1, some 3] 2
        = some ((((3 : ℚ) : ℝ) - ((4 / 3 : ℚ) : ℝ)) / Real.sqrt ((7 / 3 : ℚ) : ℝ)) := by
  have hw : window3 [some (0 : ℚ), some 1, some 3] 2 = some (0, 1, 3) := by
    simp [window3]
  have hm : mean3 [some (0 : ℚ), some 1, some 3] 2 = some (4 / 3) := by
    simp [mean3, hw]
    norm_num
  have hv : var3 [some (0 : ℚ), some 1, some 3] 2 = some (7 / 3) := by
    simp [var3, hw]
    norm_num
  have hlag : sentL1 [some (0 : ℚ), some 1, some 3] 1 = some 0 := by
    rw [C2_compute_factors.2.2.2.1 [some (0 : ℚ), some 1, some 3] 1 (by norm_num)]
    simp
  refine ⟨hlag, C2_compute_factors.2.2.2.2.1 [some (0 : ℚ), some 1, some 3] 1 (by norm_num),
    hm, hv, ?_⟩
  exact C2_compute_factors.2.2.2.2.2.2 [some (0 : ℚ), some 1, some 3] 2 (4 / 3) (7 / 3) 3
    hm hv (by norm_num) (by simp)

theorem indexed_keys_nodup (p : List JoinedRow) :
    ((indexed p).map Prod.fst).Nodup := by
  unfold indexed
  rw [List.map_fst_zip (List.range p.length) p (by simp)]
  exact List.nodup_range p.length

theorem dailyAt_keys_nodup (p : List JoinedRow) (d : ℕ) :
    ((dailyAt p d).map Prod.fst).Nodup := by
  have hsub : List.Sublist (dailyAt p d) (indexed p) := List.filter_sublist _
  exact (indexed_keys_nodup p).sublist (hsub.map Prod.fst)

theorem lookup_map_mask (m : JoinedRow → Bool) :
    ∀ (l : List (ℕ × JoinedRow)), (l.map Prod.fst).Nodup →
      ∀ x ∈ l, (l.map (fun y => (y.1, m y.2))).lookup x.1 = some (m x.2) := by
  intro l
  induction l with
  | nil => intro _ x hx; simp at hx
  | cons y ys ih =>
    intro hnd x hx
    rw [List.map_cons, List.nodup_cons] at hnd
    rcases List.mem_cons.mp hx with h | h
    · subst h
      simp [List.lookup]
    · have hne : y.1 ≠ x.1 := by
        intro he
        exact hnd.1 (he ▸ List.mem_map_of_mem Prod.fst h)
      have hbe : (x.1 == y.1) = false := by
        simp only [beq_eq_false_iff_ne, ne_eq]
        exact fun he => hne he.symm
      simp only [List.map_cons, List.lookup, hbe]
      exact ih hnd.2 x h

theorem applyMask_eq_filter (all sub : List (ℕ × JoinedRow)) (m : JoinedRow → Bool)
    (hnd : (all.map Prod.fst).Nodup) (hsub : ∀ x ∈ sub, x ∈ all) :
    applyMask all sub m = sub.filter (fun x => m x.2) := by
  unfold applyMask
  refine List.filter_congr ?_
  intro x hx
  rw [lookup_map_mask m all hnd x (hsub x hx)]

theorem longsAt_eq_direct (p : List JoinedRow) (d : ℕ) :
    longsAt p d = longsDirect p d := by
  unfold longsAt longsDirect
  exact applyMask_eq_filter _ _ _ (dailyAt_keys_nodup p d)
    (fun x hx => List.mem_of_mem_filter hx)

theorem shortsAt_eq_direct (p : List JoinedRow) (d : ℕ) :
    shortsAt p d = shortsDirect p d := by
  unfold shortsAt shortsDirect
  exact applyMask_eq_filter _ _ _ (dailyAt_keys_nodup p d)
    (fun x hx => List.mem_of_mem_filter hx)

theorem mem_dailyValAt_valid (p : List JoinedRow) (d : ℕ) (x : ℕ × JoinedRow)
    (hx : x ∈ dailyValAt p d) : validRow x.2 = true :=
  (List.mem_filter.mp hx).2

theorem mem_longsDirect_valid (p : List JoinedRow) (d : ℕ) (x : ℕ × JoinedRow)
    (hx : x ∈ longsDirect p d) : validRow x.2 = true :=
  mem_dailyValAt_valid p d x (List.mem_of_mem_filter hx)

theorem mem_shortsDirect_valid (p : List JoinedRow) (d : ℕ) (x : ℕ × JoinedRow)
    (hx : x ∈ shortsDirect p d) : validRow x.2 = true :=
  mem_dailyValAt_valid p d x (List.mem_of_mem_filter hx)

theorem filterMap_fwd_length (rows : List (ℕ × JoinedRow))
    (hv : ∀ x ∈ rows, validRow x.2 = true) :
    (rows.filterMap (fun x => x.2.fwd)).length = rows.length := by
  induction rows with
  | nil => rfl
  | cons y ys ih =>
    have hy := hv y (List.mem_cons_self _ _)
    unfold validRow at hy
    rcases Option.isSome_iff_exists.mp ((Bool.and_eq_true _ _).mp hy).2 with ⟨w, hw⟩
    simp only [List.filterMap_cons, hw, List.length_cons]
    rw [ih (fun x hx => hv x (List.mem_cons_of_mem _ hx))]

theorem optMean_of_valid (rows : List (ℕ × JoinedRow)) (hne : rows ≠ [])
    (hv : ∀ x ∈ rows, validRow x.2 = true) :
    optMean (rows.map (fun x => x.2.fwd)) = some (meanFwd rows) := by
  have hfm : (rows.map (fun x => x.2.fwd)).filterMap id
      = rows.filterMap (fun x => x.2.fwd) := by
    rw [List.filterMap_map]
    simp [Function.comp]
  have hlen := filterMap_fwd_length rows hv
  have hpos : rows.length ≠ 0 := by
    intro hcon
    exact hne (List.length_eq_zero.mp hcon)
  unfold optMean meanFwd
  simp only [hfm, hlen]
  rw [if_neg hpos]

theorem quantile_expr_bounds (s : List ℚ) (hsorted : List.Sorted (· ≤ ·) s)
    (j : ℕ) (hj : j < s.length) (g : ℚ) (hg0 : 0 ≤ g) (hg1 : g ≤ 1) :
    s.getD j 0 ∈ s
    ∧ s.getD (j + 1) (s.getD j 0) ∈ s
    ∧ s.getD j 0 ≤ s.getD j 0 + g * (s.getD (j + 1) (s.getD j 0) - s.getD j 0)
    ∧ s.getD j 0 + g * (s.getD (j + 1) (s.getD j 0) - s.getD j 0)
        ≤ s.getD (j + 1) (s.getD j 0) := by
  have hlo : s.getD j 0 = s.get ⟨j, hj⟩ := by
    rw [List.getD_eq_getElem s 0 hj]
    rfl
  have hlomem : s.getD j 0 ∈ s := by
    rw [hlo]
    exact List.get_mem s j hj
  by_cases hcase : j + 1 < s.length
  · have hhi : s.getD (j + 1) (s.getD j 0) = s.get ⟨j + 1, hcase⟩ := by
      rw [List.getD_eq_getElem s _ hcase]
      rfl
    have hhimem : s.getD (j + 1) (s.getD j 0) ∈ s := by
      rw [hhi]
      exact List.get_mem s (j + 1) hcase
    have hlohi : s.getD j 0 ≤ s.getD (j + 1) (s.getD j 0) := by
      rw [hhi, hlo]
      exact List.Sorted.rel_get_of_lt hsorted (by simp)
    have hmul0 : 0 ≤ g * (s.getD (j + 1) (s.getD j 0) - s.getD j 0) :=
      mul_nonneg hg0 (sub_nonneg.mpr hlohi)
    have hmul1 : g * (s.getD (j + 1) (s.getD j 0) - s.getD j 0)
        ≤ s.getD (j + 1) (s.getD j 0) - s.getD j 0 :=
      mul_le_of_le_one_left (sub_nonneg.mpr hlohi) hg1
    exact ⟨hlomem, hhimem, by linarith, by linarith⟩
  · have hdef : s.getD (j + 1) (s.getD j 0) = s.getD j 0 :=
      List.getD_eq_default s _ (not_lt.mp hcase)
    rw [hdef]
    exact ⟨hlomem, hlomem, by ring_nf; exact le_refl _, by ring_nf; exact le_refl _⟩

theorem quantileLin_bracket (q : ℚ) (vs : List ℚ) (hne : vs ≠ [])
    (hq0 : 0 ≤ q) (hq1 : q ≤ 1) :
    (∃ a ∈ vs, a ≤ quantileLin q vs) ∧ ∃ b ∈ vs, quantileLin q vs ≤ b := by
  have hperm : List.Perm (List.insertionSort (· ≤ ·) vs) vs :=
    List.perm_insertionSort _ vs
  have hsorted : List.Sorted (· ≤ ·) (List.insertionSort (· ≤ ·) vs) :=
    List.sorted_insertionSort _ vs
  set s := List.insertionSort (· ≤ ·) vs with hs
  have hn : 1 ≤ s.length := by
    rw [hperm.length_eq]
    exact List.length_pos.mpr hne
  have hn1 : (1 : ℚ) ≤ (s.length : ℚ) := by exact_mod_cast hn
  set h : ℚ := q * ((s.length : ℚ) - 1) with hh
  have hh0 : 0 ≤ h := mul_nonneg hq0 (by linarith)
  have hh1 : h ≤ (s.length : ℚ) - 1 := by
    rw [hh]
    exact mul_le_of_le_one_left (by linarith) hq1
  have hjz0 : 0 ≤ Int.floor h := Int.floor_nonneg.mpr hh0
  set j : ℕ := (Int.floor h).toNat with hj
  have hjcast : (j : ℚ) = ((Int.floor h : ℤ) : ℚ) := by
    rw [hj]
    exact_mod_cast congrArg (fun z : ℤ => (z : ℚ)) (Int.toNat_of_nonneg hjz0)
  have hjh : (j : ℚ) ≤ h := by
    rw [hjcast]
    exact Int.floor_le h
  have hhj1 : h < (j : ℚ) + 1 := by
    rw [hjcast]
    exact Int.lt_floor_add_one h
  have hjn : j < s.length := by
    have hq1' : (j : ℚ) ≤ (s.length : ℚ) - 1 := le_trans hjh hh1
    have : (j : ℚ) < (s.length : ℚ) := by linarith
    exact_mod_cast this
  have hg0 : 0 ≤ h - (j : ℚ) := by linarith
  have hg1 : h - (j : ℚ) ≤ 1 := by linarith
  have hval : quantileLin q vs
      = s.getD j 0 + (h - (j : ℚ)) * (s.getD (j + 1) (s.getD j 0) - s.getD j 0) := rfl
  obtain ⟨hlomem, hhimem, hlow, hhigh⟩ :=
    quantile_expr_bounds s hsorted j hjn (h - (j : ℚ)) hg0 hg1
  rw [hval]
  constructor
  · exact ⟨s.getD j 0, hperm.mem_iff.mp hlomem, hlow⟩
  · exact ⟨s.getD (j + 1) (s.getD j 0), hperm.mem_iff.mp hhimem, hhigh⟩

theorem filterMap_factor_length (rows : List (ℕ × JoinedRow))
    (hv : ∀ x ∈ rows, validRow x.2 = true) :
    (rows.filterMap (fun x => x.2.factor)).length = rows.length := by
  induction rows with
  | nil => rfl
  | cons y ys ih =>
    have hy := hv y (List.mem_cons_self _ _)
    unfold validRow at hy
    rcases Option.isSome_iff_exists.mp ((Bool.and_eq_true _ _).mp hy).1 with ⟨w, hw⟩
    simp only [List.filterMap_cons, hw, List.length_cons]
    rw [ih (fun x hx => hv x (List.mem_cons_of_mem _ hx))]

theorem factorsAt_ne_nil (p : List JoinedRow) (d : ℕ) (hne : dailyValAt p d ≠ []) :
    factorsAt p d ≠ [] := by
  intro hc
  apply hne
  have := filterMap_factor_length (dailyValAt p d) (mem_dailyValAt_valid p d)
  rw [show factorsAt p d = (dailyValAt p d).filterMap (fun x => x.2.factor) from rfl] at hc
  rw [hc] at this
  exact List.length_eq_zero.mp this.symm

theorem buckets_nonempty (p : List JoinedRow) (d : ℕ) (hne : dailyValAt p d ≠ []) :
    longsDirect p d ≠ [] ∧ shortsDirect p d ≠ [] := by
  have hfne : factorsAt p d ≠ [] := factorsAt_ne_nil p d hne
  constructor
  · obtain ⟨-, b, hbmem, hbge⟩ :=
      quantileLin_bracket (7 / 10) (factorsAt p d) hfne (by norm_num) (by norm_num)
    obtain ⟨x, hx, hxf⟩ := List.mem_filterMap.mp hbmem
    have hmask : geMask (qHighAt p d) x.2 = true := by
      unfold geMask
      rw [hxf]
      simpa using hbge
    exact List.ne_nil_of_mem (List.mem_filter.mpr ⟨hx, hmask⟩)
  · obtain ⟨⟨a, hamem, hale⟩, -⟩ :=
      quantileLin_bracket (3 / 10) (factorsAt p d) hfne (by norm_num) (by norm_num)
    obtain ⟨x, hx, hxf⟩ := List.mem_filterMap.mp hamem
    have hmask : leMask (qLowAt p d) x.2 = true := by
      unfold leMask
      rw [hxf]
      simpa using hale
    exact List.ne_nil_of_mem (List.mem_filter.mpr ⟨hx, hmask⟩)

theorem processDate_eq_some (p : List JoinedRow) (d : ℕ) (x : ℕ × ℚ) :
    processDate p d = some x ↔
      (10 ≤ (dailyValAt p d).length ∧ longsDirect p d ≠ [] ∧ shortsDirect p d ≠ []
        ∧ x = (d, meanFwd (longsDirect p d) - meanFwd (shortsDirect p d))) := by
  unfold processDate
  rw [longsAt_eq_direct, shortsAt_eq_direct]
  by_cases h10 : (dailyValAt p d).length < 10
  · rw [if_pos h10]
    constructor
    · intro hc; simp at hc
    · rintro ⟨hge, -⟩; omega
  · rw [if_neg h10]
    by_cases hemp : ((longsDirect p d).isEmpty || (shortsDirect p d).isEmpty) = true
    · rw [if_pos hemp]
      constructor
      · intro hc; simp at hc
      · rintro ⟨-, hl, hsh, -⟩
        rcases Bool.or_eq_true _ _ |>.mp hemp with he | he
        · exact absurd (List.isEmpty_iff.mp he) hl
        · exact absurd (List.isEmpty_iff.mp he) hsh
    · rw [if_neg hemp]
      have hl : longsDirect p d ≠ [] := by
        intro hc
        exact hemp (by rw [Bool.or_eq_true]; left; exact List.isEmpty_iff.mpr hc)
      have hsh : shortsDirect p d ≠ [] := by
        intro hc
        exact hemp (by rw [Bool.or_eq_true]; right; exact List.isEmpty_iff.mpr hc)
      rw [optMean_of_valid _ hl (mem_longsDirect_valid p d),
        optMean_of_valid _ hsh (mem_shortsDirect_valid p d)]
      constructor
      · intro he
        refine ⟨not_lt.mp h10, hl, hsh, ?_⟩
        exact ((Option.some.injEq _ _).mp he).symm
      · rintro ⟨-, -, -, hx⟩
        rw [hx]

theorem panelDates_sorted (p : List JoinedRow) :
    List.Sorted (· ≤ ·) (panelDates p) :=
  List.sorted_insertionSort _ _

theorem panelDates_nodup (p : List JoinedRow) : (panelDates p).Nodup :=
  ((List.perm_insertionSort _ _).nodup_iff).mpr (List.nodup_dedup _)

theorem mem_panelDates (p : List JoinedRow) (d : ℕ) :
    d ∈ panelDates p ↔ ∃ r ∈ p, r.date = d := by
  unfold panelDates
  rw [(List.perm_insertionSort _ _).mem_iff, List.mem_dedup, List.mem_map]

theorem processDate_date (p : List JoinedRow) (d : ℕ) (x : ℕ × ℚ)
    (h : processDate p d = some x) : x.1 = d := by
  obtain ⟨-, -, -, hx⟩ := (processDate_eq_some p d x).mp h
  rw [hx]

theorem mem_dailyResults (p : List JoinedRow) (pr : ℕ × ℚ) :
    pr ∈ dailyResults p ↔ pr.1 ∈ panelDates p ∧ processDate p pr.1 = some pr := by
  unfold dailyResults
  rw [List.mem_filterMap]
  constructor
  · rintro ⟨d0, hd0, hp⟩
    have he : pr.1 = d0 := processDate_date p d0 pr hp
    exact ⟨he ▸ hd0, he ▸ hp⟩
  · rintro ⟨hd, hp⟩
    exact ⟨pr.1, hd, hp⟩

theorem valid_ten_mem_dates (p : List JoinedRow) (d : ℕ)
    (h : 10 ≤ (dailyValAt p d).length) : d ∈ panelDates p := by
  have hne : dailyValAt p d ≠ [] := by
    intro hc
    rw [hc] at h
    simp at h
  obtain ⟨x, hx⟩ := List.exists_mem_of_ne_nil _ hne
  have hxd : x ∈ dailyAt p d := List.mem_of_mem_filter hx
  have hdm := List.mem_filter.mp hxd
  have hdate : x.2.date = d := by simpa using hdm.2
  have hmem : x.2 ∈ p := (List.of_mem_zip hdm.1).2
  exact (mem_panelDates p d).mpr ⟨x.2, hmem, hdate⟩

theorem cumFrom_length (rs : List ℚ) : ∀ acc : ℚ, (cumFrom acc rs).length = rs.length := by
  induction rs with
  | nil => intro acc; rfl
  | cons r rest ih =>
    intro acc
    simp only [cumFrom, List.length_cons]
    rw [ih]

theorem attach_map_date (res : List (ℕ × ℚ)) : ∀ cums : List ℚ, res.length = cums.length →
    ((res.zip cums).map (fun x => (⟨x.1.1, x.1.2, x.2⟩ : DailyRec))).map (fun r => r.date)
      = res.map Prod.fst := by
  induction res with
  | nil => intro cums _; rfl
  | cons pr rest ih =>
    intro cums hlen
    cases cums with
    | nil => simp at hlen
    | cons c cs =>
      simp only [List.zip_cons_cons, List.map_cons]
      rw [ih cs (by simpa using hlen)]

theorem mem_attach_of_mem_res (res : List (ℕ × ℚ)) : ∀ (cums : List ℚ),
    res.length = cums.length → ∀ pr ∈ res,
      ∃ c, (⟨pr.1, pr.2, c⟩ : DailyRec)
        ∈ (res.zip cums).map (fun x => (⟨x.1.1, x.1.2, x.2⟩ : DailyRec)) := by
  induction res with
  | nil => intro cums _ pr hpr; simp at hpr
  | cons y rest ih =>
    intro cums hlen pr hpr
    cases cums with
    | nil => simp at hlen
    | cons c cs =>
      rcases List.mem_cons.mp hpr with h | h
      · subst h
        exact ⟨c, by simp [List.zip_cons_cons]⟩
      · obtain ⟨c0, hc0⟩ := ih cs (by simpa using hlen) pr h
        exact ⟨c0, by simp only [List.zip_cons_cons, List.map_cons]; exact List.mem_cons_of_mem _ hc0⟩

theorem attach_mem_res (res : List (ℕ × ℚ)) (cums : List ℚ) (rec : DailyRec)
    (hrec : rec ∈ (res.zip cums).map (fun x => (⟨x.1.1, x.1.2, x.2⟩ : DailyRec))) :
    (rec.date, rec.strategy_return) ∈ res := by
  obtain ⟨x, hx, he⟩ := List.mem_map.mp hrec
  have hres : x.1 ∈ res := (List.of_mem_zip hx).1
  rw [← he]
  simpa using hres

theorem seriesMax_isSome (l : List ℚ) (h : l ≠ []) : (seriesMax l).isSome := by
  cases l with
  | nil => exact absurd rfl h
  | cons x xs => simp [seriesMax]

theorem seriesMax_ge (l : List ℚ) (x : ℚ) (hx : x ∈ l) :
    ∀ m, seriesMax l = some m → x ≤ m := by
  induction l with
  | nil => simp at hx
  | cons y ys ih =>
    intro m hm
    simp only [seriesMax] at hm
    cases hys : seriesMax ys with
    | none =>
      have hnil : ys = [] := by
        cases ys with
        | nil => rfl
        | cons a as => simp [seriesMax] at hys
      subst hnil
      simp [seriesMax] at hm
      simp at hx
      simp [← hm, hx]
    | some k =>
      rw [hys] at hm
      have hmk : m = qmax y k := (Option.some.injEq _ _).mp hm.symm
      rw [hmk, qmax_eq_max]
      rcases List.mem_cons.mp hx with h | h
      · rw [← h]; exact le_max_left _ _
      · exact le_trans (ih h k hys) (le_max_right _ _)

/-- C10: selecting the buckets by applying the boolean mask computed over
the full date group `daily` to the filtered frame `daily_val` (pandas
index alignment) yields exactly the rows obtained by evaluating the mask
on `daily_val` directly; consequently every bucket row has both the factor
and the forward return defined. -/
theorem C10_mask_alignment :
    ∀ (p : List JoinedRow) (d : ℕ),
      longsAt p d = (dailyValAt p d).filter (fun x => geMask (qHighAt p d) x.2)
      ∧ shortsAt p d = (dailyValAt p d).filter (fun x => leMask (qLowAt p d) x.2)
      ∧ (∀ x ∈ longsAt p d, x.2.factor.isSome ∧ x.2.fwd.isSome)
      ∧ (∀ x ∈ shortsAt p d, x.2.factor.isSome ∧ x.2.fwd.isSome) := by
  intro p d
  refine ⟨longsAt_eq_direct p d, shortsAt_eq_direct p d, ?_, ?_⟩
  · intro x hx
    rw [longsAt_eq_direct] at hx
    have hv := mem_longsDirect_valid p d x hx
    unfold validRow at hv
    exact ⟨((Bool.and_eq_true _ _).mp hv).1, ((Bool.and_eq_true _ _).mp hv).2⟩
  · intro x hx
    rw [shortsAt_eq_direct] at hx
    have hv := mem_shortsDirect_valid p d x hx
    unfold validRow at hv
    exact ⟨((Bool.and_eq_true _ _).mp hv).1, ((Bool.and_eq_true _ _).mp hv).2⟩

/-- C9: on every date group with at least one valid row the 0.3 quantile is
at least the minimum valid factor value and the 0.7 quantile is at most the
maximum, so both buckets are non-empty; hence the empty-bucket skip branch
never fires and a date enters the daily series exactly when it has at least
10 valid rows. -/
theorem C9_buckets_never_empty :
    (∀ (p : List JoinedRow) (d : ℕ), dailyValAt p d ≠ [] →
        (∃ mn, seriesMin (factorsAt p d) = some mn ∧ mn ≤ qLowAt p d)
        ∧ (∃ mx, seriesMax (factorsAt p d) = some mx ∧ qHighAt p d ≤ mx)
        ∧ longsDirect p d ≠ [] ∧ shortsDirect p d ≠ [])
    ∧ ∀ (p : List JoinedRow) (d : ℕ),
        (∃ pr ∈ dailyResults p, pr.1 = d) ↔ 10 ≤ (dailyValAt p d).length := by
  constructor
  · intro p d hne
    have hfne : factorsAt p d ≠ [] := factorsAt_ne_nil p d hne
    obtain ⟨⟨a, hamem, hale⟩, -⟩ :=
      quantileLin_bracket (3 / 10) (factorsAt p d) hfne (by norm_num) (by norm_num)
    obtain ⟨-, b, hbmem, hbge⟩ :=
      quantileLin_bracket (7 / 10) (factorsAt p d) hfne (by norm_num) (by norm_num)
    refine ⟨?_, ?_, buckets_nonempty p d hne⟩
    · rcases Option.isSome_iff_exists.mp (seriesMin_isSome _ hfne) with ⟨mn, hmn⟩
      exact ⟨mn, hmn, le_trans (seriesMin_le _ a hamem mn hmn) hale⟩
    · rcases Option.isSome_iff_exists.mp (seriesMax_isSome _ hfne) with ⟨mx, hmx⟩
      exact ⟨mx, hmx, le_trans hbge (seriesMax_ge _ b hbmem mx hmx)⟩
  · intro p d
    constructor
    · rintro ⟨pr, hpr, hd⟩
      obtain ⟨-, hproc⟩ := (mem_dailyResults p pr).mp hpr
      obtain ⟨h10, -, -, -⟩ := (processDate_eq_some p pr.1 pr).mp hproc
      rw [← hd]
      exact h10
    · intro h10
      have hne : dailyValAt p d ≠ [] := by
        intro hc
        rw [hc] at h10
        simp at h10
      obtain ⟨hl, hsh⟩ := buckets_nonempty p d hne
      refine ⟨(d, meanFwd (longsDirect p d) - meanFwd (shortsDirect p d)), ?_, rfl⟩
      exact (mem_dailyResults p _).mpr
        ⟨valid_ten_mem_dates p d h10, (processDate_eq_some p d _).mpr ⟨h10, hl, hsh, rfl⟩⟩

theorem run_longshort_daily_def (p : List JoinedRow) :
    (run_longshort p).1
      = ((dailyResults p).zip (cumFrom 1 ((dailyResults p).map (fun x => x.2)))).map
          (fun x => (⟨x.1.1, x.1.2, x.2⟩ : DailyRec)) := rfl

theorem run_daily_len_eq (p : List JoinedRow) :
    (dailyResults p).length
      = (cumFrom 1 ((dailyResults p).map (fun x => x.2))).length := by
  rw [cumFrom_length, List.length_map]

/-- C1: a date enters `run_longshort`'s daily series exactly when at least
10 of its rows have both the factor and the forward return defined and both
quantile buckets are non-empty; and each emitted `strategy_return` is the
mean forward return over valid rows with factor `≥` the 0.7
linear-interpolation quantile minus the mean over valid rows with factor
`≤` the 0.3 quantile. -/
theorem C1_run_longshort_selection :
    ∀ (p : List JoinedRow) (d : ℕ),
      ((∃ rec ∈ (run_longshort p).1, rec.date = d)
        ↔ (10 ≤ (dailyValAt p d).length ∧ longsDirect p d ≠ [] ∧ shortsDirect p d ≠ []))
      ∧ ∀ rec ∈ (run_longshort p).1,
          rec.strategy_return
            = meanFwd (longsDirect p rec.date) - meanFwd (shortsDirect p rec.date) := by
  intro p d
  constructor
  · constructor
    · rintro ⟨rec, hrec, hdate⟩
      rw [run_longshort_daily_def] at hrec
      have hres := attach_mem_res _ _ rec hrec
      obtain ⟨-, hproc⟩ := (mem_dailyResults p _).mp hres
      obtain ⟨h10, hl, hsh, -⟩ := (processDate_eq_some p _ _).mp hproc
      rw [← hdate]
      exact ⟨h10, hl, hsh⟩
    · rintro ⟨h10, hl, hsh⟩
      have hproc : processDate p d
          = some (d, meanFwd (longsDirect p d) - meanFwd (shortsDirect p d)) :=
        (processDate_eq_some p d _).mpr ⟨h10, hl, hsh, rfl⟩
      have hres : (d, meanFwd (longsDirect p d) - meanFwd (shortsDirect p d))
          ∈ dailyResults p :=
        (mem_dailyResults p _).mpr ⟨valid_ten_mem_dates p d h10, hproc⟩
      obtain ⟨c, hc⟩ :=
        mem_attach_of_mem_res (dailyResults p) _ (run_daily_len_eq p) _ hres
      rw [run_longshort_daily_def]
      exact ⟨⟨d, meanFwd (longsDirect p d) - meanFwd (shortsDirect p d), c⟩, hc, rfl⟩
  · intro rec hrec
    rw [run_longshort_daily_def] at hrec
    have hres := attach_mem_res _ _ rec hrec
    obtain ⟨-, hproc⟩ := (mem_dailyResults p _).mp hres
    obtain ⟨-, -, -, hx⟩ := (processDate_eq_some p _ _).mp hproc
    exact congrArg Prod.snd hx

theorem filterMap_map_fst_sublist (f : ℕ → Option (ℕ × ℚ))
    (hf : ∀ d x, f d = some x → x.1 = d) :
    ∀ dates : List ℕ, List.Sublist ((dates.filterMap f).map Prod.fst) dates := by
  intro dates
  induction dates with
  | nil => simp
  | cons d ds ih =>
    cases hfd : f d with
    | none =>
      simp only [List.filterMap_cons, hfd]
      exact ih.cons d
    | some x =>
      simp only [List.filterMap_cons, hfd, List.map_cons, hf d x hfd]
      exact ih.cons₂ d

theorem panelDates_pairwise_lt (p : List JoinedRow) :
    (panelDates p).Pairwise (· < ·) := by
  have hs : (panelDates p).Pairwise (· ≤ ·) := panelDates_sorted p
  have hn : (panelDates p).Pairwise (· ≠ ·) := panelDates_nodup p
  exact (hs.and hn).imp (fun hab => lt_of_le_of_ne hab.1 hab.2)

theorem cum_attach_props (res : List (ℕ × ℚ)) : ∀ acc : ℚ,
    (∀ r0 : DailyRec,
        (((res.zip (cumFrom acc (res.map (fun x => x.2)))).map
          (fun x => (⟨x.1.1, x.1.2, x.2⟩ : DailyRec))).head? = some r0 →
            r0.cum_return = acc * (1 + r0.strategy_return)))
    ∧ List.Chain' (fun a b => b.cum_return = a.cum_return * (1 + b.strategy_return))
        ((res.zip (cumFrom acc (res.map (fun x => x.2)))).map
          (fun x => (⟨x.1.1, x.1.2, x.2⟩ : DailyRec))) := by
  induction res with
  | nil =>
    intro acc
    constructor
    · intro r0 h
      simp at h
    · simp
  | cons pr rest ih =>
    intro acc
    simp only [List.map_cons, cumFrom, List.zip_cons_cons]
    constructor
    · intro r0 h
      simp only [List.head?_cons, Option.some.injEq] at h
      rw [← h]
    · rw [List.chain'_cons']
      constructor
      · intro b hb
        have hhead := (ih (acc * (1 + pr.2))).1 b hb
        rw [hhead]
      · exact (ih (acc * (1 + pr.2))).2

/-- C4: the non-empty daily series is strictly increasing by date, its
first record satisfies `cum_return = 1 + strategy_return`, and each later
record satisfies `cum_return = previous cum_return * (1 + strategy_return)`. -/
theorem C4_daily_series_shape :
    ∀ p : List JoinedRow,
      List.Chain' (fun a b : DailyRec => a.date < b.date) (run_longshort p).1
      ∧ (∀ r0 : DailyRec, (run_longshort p).1.head? = some r0 →
          r0.cum_return = 1 + r0.strategy_return)
      ∧ List.Chain' (fun a b : DailyRec =>
          b.cum_return = a.cum_return * (1 + b.strategy_return)) (run_longshort p).1 := by
  intro p
  refine ⟨?_, ?_, ?_⟩
  · have hsub : List.Sublist ((dailyResults p).map Prod.fst) (panelDates p) := by
      unfold dailyResults
      exact filterMap_map_fst_sublist (processDate p) (processDate_date p) (panelDates p)
    have hpw : ((dailyResults p).map Prod.fst).Pairwise (· < ·) :=
      (panelDates_pairwise_lt p).sublist hsub
    have hdates : ((run_longshort p).1.map (fun r => r.date))
        = (dailyResults p).map Prod.fst := by
      rw [run_longshort_daily_def]
      exact attach_map_date (dailyResults p) _ (run_daily_len_eq p)
    have hpw2 : ((run_longshort p).1.map (fun r => r.date)).Pairwise (· < ·) := by
      rw [hdates]
      exact hpw
    rw [List.pairwise_map] at hpw2
    exact hpw2.chain'
  · intro r0 h
    rw [run_longshort_daily_def] at h
    have := (cum_attach_props (dailyResults p) 1).1 r0 h
    rw [this, one_mul]
  · rw [run_longshort_daily_def]
    exact (cum_attach_props (dailyResults p) 1).2

theorem bucketsCfg_nonempty (p : List JoinedRow) (d : ℕ) (qlo qhi : ℚ)
    (hne : dailyValAt p d ≠ [])
    (hlo0 : 0 ≤ qlo) (hlo1 : qlo ≤ 1) (hhi0 : 0 ≤ qhi) (hhi1 : qhi ≤ 1) :
    (dailyValAt p d).filter (fun x => geMask (quantileLin qhi (factorsAt p d)) x.2) ≠ []
    ∧ (dailyValAt p d).filter (fun x => leMask (quantileLin qlo (factorsAt p d)) x.2) ≠ [] := by
  have hfne : factorsAt p d ≠ [] := factorsAt_ne_nil p d hne
  constructor
  · obtain ⟨-, b, hbmem, hbge⟩ := quantileLin_bracket qhi (factorsAt p d) hfne hhi0 hhi1
    obtain ⟨x, hx, hxf⟩ := List.mem_filterMap.mp hbmem
    have hmask : geMask (quantileLin qhi (factorsAt p d)) x.2 = true := by
      unfold geMask
      rw [hxf]
      simpa using hbge
    exact List.ne_nil_of_mem (List.mem_filter.mpr ⟨hx, hmask⟩)
  · obtain ⟨⟨a, hamem, hale⟩, -⟩ := quantileLin_bracket qlo (factorsAt p d) hfne hlo0 hlo1
    obtain ⟨x, hx, hxf⟩ := List.mem_filterMap.mp hamem
    have hmask : leMask (quantileLin qlo (factorsAt p d)) x.2 = true := by
      unfold leMask
      rw [hxf]
      simpa using hale
    exact List.ne_nil_of_mem (List.mem_filter.mpr ⟨hx, hmask⟩)

theorem processDateCfg_some_of (mcs : ℕ) (qlo qhi : ℚ) (p : List JoinedRow) (d : ℕ)
    (h10 : mcs ≤ (dailyValAt p d).length)
    (hl : (dailyValAt p d).filter (fun x => geMask (quantileLin qhi (factorsAt p d)) x.2) ≠ [])
    (hsh : (dailyValAt p d).filter (fun x => leMask (quantileLin qlo (factorsAt p d)) x.2) ≠ []) :
    processDateCfg mcs qlo qhi p d
      = some (d,
          meanFwd ((dailyValAt p d).filter
            (fun x => geMask (quantileLin qhi (factorsAt p d)) x.2))
          - meanFwd ((dailyValAt p d).filter
            (fun x => leMask (quantileLin qlo (factorsAt p d)) x.2))) := by
  have hmaskL := applyMask_eq_filter (dailyAt p d) (dailyValAt p d)
    (geMask (quantileLin qhi (factorsAt p d))) (dailyAt_keys_nodup p d)
    (fun x hx => List.mem_of_mem_filter hx)
  have hmaskS := applyMask_eq_filter (dailyAt p d) (dailyValAt p d)
    (leMask (quantileLin qlo (factorsAt p d))) (dailyAt_keys_nodup p d)
    (fun x hx => List.mem_of_mem_filter hx)
  simp only [processDateCfg, hmaskL, hmaskS]
  rw [if_neg (by omega)]
  rw [if_neg (by
    intro hc
    rcases (Bool.or_eq_true _ _).mp hc with he | he
    · exact hl (List.isEmpty_iff.mp he)
    · exact hsh (List.isEmpty_iff.mp he))]
  rw [optMean_of_valid _ hl
      (fun x hx => mem_dailyValAt_valid p d x (List.mem_of_mem_filter hx)),
    optMean_of_valid _ hsh
      (fun x hx => mem_dailyValAt_valid p d x (List.mem_of_mem_filter hx))]

/-- C8 counterexample: on the nine-valid-row panel `P9`, `run_longshort`
returns an empty daily series — there is no way for a caller to supply
`min_cross_section = 9` (the function's signature has no such parameter) —
while the spec's configurable engine at `min_cross_section = 9` does emit
the date. -/
theorem C8_counterexample :
    (run_longshort P9).1 = []
    ∧ dailyResults P9 = []
    ∧ dailyResultsCfg 9 (3 / 10) (7 / 10) P9 ≠ [] := by
  have hres : dailyResults P9 = [] := by decide
  refine ⟨?_, hres, ?_⟩
  · rw [run_longshort_daily_def, hres]
    rfl
  · have hne : dailyValAt P9 0 ≠ [] := by decide
    have h9 : 9 ≤ (dailyValAt P9 0).length := by decide
    obtain ⟨hl, hsh⟩ := bucketsCfg_nonempty P9 0 (3 / 10) (7 / 10) hne
      (by norm_num) (by norm_num) (by norm_num) (by norm_num)
    have hproc := processDateCfg_some_of 9 (3 / 10) (7 / 10) P9 0 h9 hl hsh
    have hmem : (0 ∈ panelDates P9) := by decide
    refine List.ne_nil_of_mem (a := ((0 : ℕ),
      meanFwd ((dailyValAt P9 0).filter
        (fun x => geMask (quantileLin (7 / 10) (factorsAt P9 0)) x.2))
      - meanFwd ((dailyValAt P9 0).filter
        (fun x => leMask (quantileLin (3 / 10) (factorsAt P9 0)) x.2)))) ?_
    unfold dailyResultsCfg
    exact List.mem_filterMap.mpr ⟨0, hmem, hproc⟩

/-- C8 (amended): `run_longshort`'s selection uses the fixed values
`min_cross_section = 10`, `short_quantile = 0.3`, `long_quantile = 0.7`:
its per-date step and daily series coincide with the spec's configurable
engine instantiated at exactly those constants (the source exposes no
parameter to override them — its signature is
`run_longshort(df, factor_col, fwd_return_col)`). -/
theorem C8_fixed_configuration :
    (∀ (p : List JoinedRow) (d : ℕ),
        processDate p d = processDateCfg 10 (3 / 10) (7 / 10) p d)
    ∧ ∀ p : List JoinedRow, dailyResults p = dailyResultsCfg 10 (3 / 10) (7 / 10) p := by
  constructor
  · intro p d
    rfl
  · intro p
    rfl

theorem P5_ic_defined : ((run_longshort P5).2.IC).isSome = true := by
  have hic : (run_longshort P5).2.IC
      = spearman [((1 : ℚ), (1 : ℚ)), (2, 2), (3, 3), (4, 4), (5, 5)] := rfl
  rw [hic]
  have hfst : ([((1 : ℚ), (1 : ℚ)), (2, 2), (3, 3), (4, 4), (5, 5)].map
      (fun p => p.1)) = [(1 : ℚ), 2, 3, 4, 5] := rfl
  have hsnd : ([((1 : ℚ), (1 : ℚ)), (2, 2), (3, 3), (4, 4), (5, 5)].map
      (fun p => p.2)) = [(1 : ℚ), 2, 3, 4, 5] := rfl
  have hranks : ranks [(1 : ℚ), 2, 3, 4, 5] = [1, 2, 3, 4, 5] := by
    simp [ranks, rankIn]
    norm_num
  have hpv : pvar [(1 : ℚ), 2, 3, 4, 5] = 2 := by
    simp [pvar]
    norm_num
  simp only [spearman, hfst, hsnd, hranks, hpv]
  rw [if_neg (by norm_num)]
  rfl

/-- C3: when no date survives the per-date selection, `run_longshort`
returns the empty daily series (the empty frame still carrying the
`strategy_return`/`cum_return` columns — here the empty `DailyRec` list)
with `Sharpe` and `MaxDD` undefined, while `IC` is always computed from the
raw joined columns (pairwise-dropping undefined pairs, undefined below 5
pairs) and can be defined even though the series is empty, as on the
five-row panel `P5`. -/
theorem C3_empty_series_metrics :
    (∀ p : List JoinedRow, dailyResults p = [] →
        (run_longshort p).1 = []
        ∧ (run_longshort p).2.Sharpe = none
        ∧ (run_longshort p).2.MaxDD = none
        ∧ (run_longshort p).2.IC
            = compute_ic (p.map (fun r => r.factor)) (p.map (fun r => r.fwd)))
    ∧ (∀ factor fwd : List (Option ℚ),
        ((factor.zip fwd).filterMap (fun q =>
            match q.1, q.2 with
            | some a, some b => some (a, b)
            | _, _ => none)).length < 5 → compute_ic factor fwd = none)
    ∧ (dailyResults P5 = [] ∧ ((run_longshort P5).2.IC).isSome = true) := by
  refine ⟨?_, ?_, by decide, P5_ic_defined⟩
  · intro p h
    refine ⟨?_, ?_, ?_, rfl⟩
    · rw [run_longshort_daily_def, h]
      rfl
    · show (if (dailyResults p).isEmpty = true then none
          else sharpe_ratio ((dailyResults p).map (fun x => x.2))) = none
      rw [h]
      rfl
    · show (if (dailyResults p).isEmpty = true then none
          else max_drawdown (cumFrom 1 ((dailyResults p).map (fun x => x.2)))) = none
      rw [h]
      rfl
  · intro factor fwd h
    unfold compute_ic
    rw [if_pos h]

/-- Witness for C3: on `P5` no date survives, the daily series is empty,
`Sharpe` and `MaxDD` are undefined; and on a one-row input `compute_ic` is
undefined (fewer than 5 pairs). -/
theorem C3_witness :
    dailyResults P5 = []
    ∧ (run_longshort P5).2.Sharpe = none
    ∧ (run_longshort P5).2.MaxDD = none
    ∧ compute_ic [some (1 : ℚ)] [some (1 : ℚ)] = none :=
  ⟨by decide,
    (C3_empty_series_metrics.1 P5 (by decide)).2.1,
    (C3_empty_series_metrics.1 P5 (by decide)).2.2.1,
    C3_empty_series_metrics.2.1 [some (1 : ℚ)] [some (1 : ℚ)] (by decide)⟩

/-- Witness for C9 at the ten-row panel `P10` and date `0`: the date group
is non-empty, the quantiles are bracketed by the min/max, both buckets are
non-empty, and the date enters the daily series. -/
theorem C9_witness :
    dailyValAt P10 0 ≠ []
    ∧ (∃ mn, seriesMin (factorsAt P10 0) = some mn ∧ mn ≤ qLowAt P10 0)
    ∧ (∃ mx, seriesMax (factorsAt P10 0) = some mx ∧ qHighAt P10 0 ≤ mx)
    ∧ longsDirect P10 0 ≠ [] ∧ shortsDirect P10 0 ≠ []
    ∧ (∃ pr ∈ dailyResults P10, pr.1 = 0) := by
  have hne : dailyValAt P10 0 ≠ [] := by decide
  obtain ⟨hmn, hmx, hl, hsh⟩ := C9_buckets_never_empty.1 P10 0 hne
  exact ⟨hne, hmn, hmx, hl, hsh, (C9_buckets_never_empty.2 P10 0).mpr (by decide)⟩

/-- Witness for C10 at `P10` and date `0`: the aligned-mask buckets equal
the directly filtered buckets, and a member of the long bucket has both
fields defined. -/
theorem C10_witness :
    longsAt P10 0 = (dailyValAt P10 0).filter (fun x => geMask (qHighAt P10 0) x.2)
    ∧ ∃ x, x ∈ longsAt P10 0 ∧ x.2.factor.isSome ∧ x.2.fwd.isSome := by
  refine ⟨(C10_mask_alignment P10 0).1, ?_⟩
  have hne : dailyValAt P10 0 ≠ [] := by decide
  have hl : longsDirect P10 0 ≠ [] := (buckets_nonempty P10 0 hne).1
  have hl2 : longsAt P10 0 ≠ [] := by
    rw [longsAt_eq_direct]
    exact hl
  obtain ⟨x, hx⟩ := List.exists_mem_of_ne_nil _ hl2
  exact ⟨x, hx, (C10_mask_alignment P10 0).2.2.1 x hx⟩

/-- Witness for C1 at `P10` and date `0`: the selection condition holds
(10 valid rows, both buckets non-empty), so the date is in the daily
series, and the emitted record's return is the long-minus-short spread. -/
theorem C1_witness :
    (10 ≤ (dailyValAt P10 0).length
      ∧ longsDirect P10 0 ≠ [] ∧ shortsDirect P10 0 ≠ [])
    ∧ ∃ rec ∈ (run_longshort P10).1, rec.date = 0
        ∧ rec.strategy_return
            = meanFwd (longsDirect P10 rec.date) - meanFwd (shortsDirect P10 rec.date) := by
  have hne : dailyValAt P10 0 ≠ [] := by decide
  obtain ⟨hl, hsh⟩ := buckets_nonempty P10 0 hne
  have h10 : 10 ≤ (dailyValAt P10 0).length := by decide
  obtain ⟨rec, hrec, hdate⟩ := (C1_run_longshort_selection P10 0).1.mpr ⟨h10, hl, hsh⟩
  exact ⟨⟨h10, hl, hsh⟩, rec, hrec, hdate,
    (C1_run_longshort_selection P10 0).2 rec hrec⟩

/-- Witness for C4 at `P10`: the daily series is non-empty and its first
record satisfies `cum_return = 1 + strategy_return`. -/
theorem C4_witness :
    ∃ r0, (run_longshort P10).1.head? = some r0
      ∧ r0.cum_return = 1 + r0.strategy_return := by
  have hne : dailyValAt P10 0 ≠ [] := by decide
  obtain ⟨hl, hsh⟩ := buckets_nonempty P10 0 hne
  obtain ⟨rec, hrec, -⟩ := (C1_run_longshort_selection P10 0).1.mpr ⟨by decide, hl, hsh⟩
  cases hd : (run_longshort P10).1 with
  | nil => rw [hd] at hrec; simp at hrec
  | cons r0 rest =>
    refine ⟨r0, rfl, ?_⟩
    exact (C4_daily_series_shape P10).2.1 r0 (by rw [hd]; rfl)

theorem fvalMin_cases (a b : FloatVal) : fvalMin a b = a ∨ fvalMin a b = b := by
  cases a with
  | ninf => left; cases b <;> rfl
  | pinf =>
    cases b with
    | ninf => right; rfl
    | pinf => left; rfl
    | fin y => right; rfl
  | fin x =>
    cases b with
    | ninf => right; rfl
    | pinf => left; rfl
    | fin y =>
      have hv : fvalMin (FloatVal.fin x) (FloatVal.fin y) = FloatVal.fin (qmin x y) := rfl
      rcases min_cases x y with ⟨h1, -⟩ | ⟨h1, -⟩
      · left; rw [hv, qmin_eq_min, h1]
      · right; rw [hv, qmin_eq_min, h1]

theorem seriesMinF_mem (L : List (Option FloatVal)) (u : FloatVal)
    (h : seriesMinF L = some u) : some u ∈ L := by
  induction L generalizing u with
  | nil => simp [seriesMinF] at h
  | cons e es ih =>
    cases e with
    | none =>
      rw [show seriesMinF (none :: es) = seriesMinF es from rfl] at h
      exact List.mem_cons_of_mem _ (ih u h)
    | some w =>
      simp only [seriesMinF] at h
      cases hr : seriesMinF es with
      | none =>
        rw [hr] at h
        have : w = u := (Option.some.injEq _ _).mp h
        simp [← this]
      | some m =>
        rw [hr] at h
        have hu : fvalMin w m = u := (Option.some.injEq _ _).mp h
        rcases fvalMin_cases w m with hc | hc
        · rw [hc] at hu
          simp [← hu]
        · rw [hc] at hu
          rw [← hu]
          exact List.mem_cons_of_mem _ (ih m hr)

theorem seriesMinF_fin_le_head (a v : ℚ) (es : List (Option FloatVal))
    (h : seriesMinF (some (FloatVal.fin a) :: es) = some (FloatVal.fin v)) : v ≤ a := by
  simp only [seriesMinF] at h
  cases hr : seriesMinF es with
  | none =>
    rw [hr] at h
    have := (Option.some.injEq _ _).mp h
    rw [FloatVal.fin.injEq] at this
    rw [← this]
  | some m =>
    rw [hr] at h
    have hu : fvalMin (FloatVal.fin a) m = FloatVal.fin v := (Option.some.injEq _ _).mp h
    cases m with
    | ninf => simp [fvalMin] at hu
    | pinf =>
      simp only [fvalMin] at hu
      rw [FloatVal.fin.injEq] at hu
      rw [← hu]
    | fin b =>
      simp only [fvalMin] at hu
      rw [FloatVal.fin.injEq] at hu
      rw [← hu, qmin_eq_min]
      exact min_le_left _ _

theorem seriesMinF_all_fin0 :
    ∀ L : List (Option FloatVal),
      (∀ e ∈ L, e = none ∨ e = some (FloatVal.fin 0)) →
      (∃ e ∈ L, e = some (FloatVal.fin 0)) →
      seriesMinF L = some (FloatVal.fin 0) := by
  intro L
  induction L with
  | nil =>
    rintro - ⟨e, he, -⟩
    simp at he
  | cons e es ih =>
    intro hall hex
    rcases hall e (List.mem_cons_self _ _) with he | he
    · subst he
      rw [show seriesMinF (none :: es) = seriesMinF es from rfl]
      obtain ⟨w, hw, hw0⟩ := hex
      rcases List.mem_cons.mp hw with h | h
      · rw [h] at hw0
        simp at hw0
      · exact ih (fun x hx => hall x (List.mem_cons_of_mem _ hx)) ⟨w, h, hw0⟩
    · subst he
      simp only [seriesMinF]
      cases hr : seriesMinF es with
      | none => rfl
      | some m =>
        have hmem := seriesMinF_mem es m hr
        rcases hall (some m) (List.mem_cons_of_mem _ hmem) with hc | hc
        · simp at hc
        · have : m = FloatVal.fin 0 := (Option.some.injEq _ _).mp hc
          subst this
          simp [fvalMin, qmin]

theorem ddEntryF_self (c : ℚ) :
    ddEntryF c c = if c = 0 then none else some (FloatVal.fin 0) := by
  by_cases hc : c = 0
  · simp [ddEntryF, hc]
  · simp [ddEntryF, hc, sub_self, zero_div]

theorem zip_runningMax_le (l : List ℚ) :
    ∀ p ∈ l.zip (runningMax l), p.1 ≤ p.2 := by
  induction l with
  | nil => intro p hp; simp at hp
  | cons x xs ih =>
    intro p hp
    rw [runningMax, List.zip_cons_cons] at hp
    rcases List.mem_cons.mp hp with h | h
    · rw [h]
    · rw [List.zip_map_right] at h
      obtain ⟨⟨a, b⟩, hq, he⟩ := List.mem_map.mp h
      rw [← he]
      show a ≤ qmax x b
      rw [qmax_eq_max]
      exact le_trans (ih ⟨a, b⟩ hq) (le_max_right _ _)

theorem zip_runningMax_head_le (x : ℚ) (xs : List ℚ) :
    ∀ p ∈ (x :: xs).zip (runningMax (x :: xs)), x ≤ p.2 := by
  intro p hp
  rw [runningMax, List.zip_cons_cons] at hp
  rcases List.mem_cons.mp hp with h | h
  · rw [h]
  · rw [List.zip_map_right] at h
    obtain ⟨⟨a, b⟩, hq, he⟩ := List.mem_map.mp h
    rw [← he]
    show x ≤ qmax x b
    rw [qmax_eq_max]
    exact le_max_left _ _

theorem seriesMinF_map_fin : ∀ ds : List ℚ,
    seriesMinF (ds.map (fun v => some (FloatVal.fin v)))
      = (seriesMin ds).map FloatVal.fin := by
  intro ds
  induction ds with
  | nil => rfl
  | cons d rest ih =>
    simp only [List.map_cons, seriesMinF, seriesMin, ih]
    cases hr : seriesMin rest with
    | none => rfl
    | some m => rfl

theorem max_drawdown_float_agrees (l : List ℚ)
    (h : ∀ p ∈ l.zip (runningMax l), p.2 ≠ 0) :
    max_drawdown_float l = (max_drawdown l).map FloatVal.fin := by
  unfold max_drawdown_float max_drawdown
  have he : (l.zip (runningMax l)).map (fun p => ddEntryF p.1 p.2)
      = ((l.zip (runningMax l)).map (fun p => (p.1 - p.2) / p.2)).map
          (fun v => some (FloatVal.fin v)) := by
    rw [List.map_map]
    refine List.map_congr_left ?_
    intro p hp
    simp only [Function.comp]
    unfold ddEntryF
    rw [if_neg (h p hp)]
  rw [he, seriesMinF_map_fin]

/-- C5 counterexample: under the float semantics of
`dd = (cum - cummax) / cummax` the single-element series `[0.0]` has
`dd = [0/0] = [NaN]` and `dd.min()` is NaN — not `0` as the claim states
for every single-element series — and the non-empty series `[0.0, -1.0]`
(running maximum `[0, 0]`) yields `-inf`, not a rational value `≤ 0`. -/
theorem C5_counterexample :
    max_drawdown_float [(0 : ℚ)] = none
    ∧ max_drawdown_float [(0 : ℚ)] ≠ some (FloatVal.fin 0)
    ∧ max_drawdown_float [(0 : ℚ), -1] = some FloatVal.ninf := by
  refine ⟨by decide, by decide, by decide⟩

/-- C5 (amended): `max_drawdown` returns the NaN-skipping minimum over
positions of the float quotient `(cum_return − running max) / running max`;
a position with running peak exactly `0` contributes NaN (value `0`) or
`-inf` (negative value); whenever the result is finite it is `≤ 0`; it is
exactly `0` for every single-element series with a nonzero value and for
every strictly increasing series containing a nonzero value; it is
undefined for an empty series. -/
theorem C5_float_drawdown_properties :
    (∀ l : List ℚ, max_drawdown_float l
        = seriesMinF ((l.zip (runningMax l)).map (fun p => ddEntryF p.1 p.2)))
    ∧ (∀ (l : List ℚ) (v : ℚ), max_drawdown_float l = some (FloatVal.fin v) → v ≤ 0)
    ∧ (∀ l : List ℚ, l.Chain' (· < ·) → (∃ x ∈ l, x ≠ 0) →
        max_drawdown_float l = some (FloatVal.fin 0))
    ∧ (∀ x : ℚ, x ≠ 0 → max_drawdown_float [x] = some (FloatVal.fin 0))
    ∧ max_drawdown_float ([] : List ℚ) = none := by
  refine ⟨fun l => rfl, ?_, ?_, ?_, rfl⟩
  · intro l v hres
    cases l with
    | nil => simp [max_drawdown_float, runningMax, seriesMinF] at hres
    | cons c0 rest =>
      by_cases hc0 : c0 = 0
      · have hmem := seriesMinF_mem _ _ hres
        obtain ⟨p, hp, hdd⟩ := List.mem_map.mp hmem
        have hm : p.2 ≠ 0 ∧ v = (p.1 - p.2) / p.2 := by
          unfold ddEntryF at hdd
          split at hdd
          · split at hdd
            · simp at hdd
            · split at hdd <;> simp at hdd
          · refine ⟨by assumption, ?_⟩
            have := (Option.some.injEq _ _).mp hdd
            rw [FloatVal.fin.injEq] at this
            exact this.symm
        have hx : (0 : ℚ) ≤ p.2 := by
          have := zip_runningMax_head_le c0 rest p hp
          rw [hc0] at this
          exact this
        have hpos : 0 < p.2 := lt_of_le_of_ne hx (Ne.symm hm.1)
        have hle := zip_runningMax_le _ p hp
        rw [hm.2, div_nonpos_iff]
        right
        exact ⟨sub_nonpos.mpr hle, le_of_lt hpos⟩
      · have hfirst : ddEntryF c0 c0 = some (FloatVal.fin 0) := by
          rw [ddEntryF_self, if_neg hc0]
        unfold max_drawdown_float at hres
        rw [runningMax, List.zip_cons_cons, List.map_cons, hfirst] at hres
        exact seriesMinF_fin_le_head 0 v _ hres
  · intro l hchain hex
    have hrm : runningMax l = l :=
      runningMax_of_pairwise_le l ((List.chain'_iff_pairwise.mp hchain).imp le_of_lt)
    unfold max_drawdown_float
    rw [hrm, map_zip_self (fun c m => ddEntryF c m) l]
    refine seriesMinF_all_fin0 _ ?_ ?_
    · intro e he
      obtain ⟨c, -, hc⟩ := List.mem_map.mp he
      rw [← hc, ddEntryF_self]
      by_cases h0 : c = 0
      · left; rw [if_pos h0]
      · right; rw [if_neg h0]
    · obtain ⟨x, hx, hx0⟩ := hex
      refine ⟨ddEntryF x x, List.mem_map_of_mem _ hx, ?_⟩
      rw [ddEntryF_self, if_neg hx0]
  · intro x hx
    unfold max_drawdown_float
    rw [show runningMax [x] = [x] from rfl, List.zip_cons_cons]
    simp only [List.zip_nil_right, List.map_cons, List.map_nil]
    rw [ddEntryF_self, if_neg hx]
    rfl

/-- Witness for C5 at concrete inputs: `[1]` has a nonzero single element,
so the float drawdown is exactly `0`; `[1, 2]` is strictly increasing with
a nonzero value, so it is exactly `0`; on `[3, 1]` the result is the finite
value `-2/3`, and the theorem bounds it by `0`. -/
theorem C5_float_witness :
    ((1 : ℚ) ≠ 0 ∧ max_drawdown_float [(1 : ℚ)] = some (FloatVal.fin 0))
    ∧ (List.Chain' (· < ·) [(1 : ℚ), 2] ∧ (∃ x ∈ [(1 : ℚ), 2], x ≠ 0)
        ∧ max_drawdown_float [(1 : ℚ), 2] = some (FloatVal.fin 0))
    ∧ (max_drawdown_float [(3 : ℚ), 1] = some (FloatVal.fin (-(2 / 3)))
        ∧ (-(2 / 3) : ℚ) ≤ 0) := by
  have h31 : max_drawdown_float [(3 : ℚ), 1] = some (FloatVal.fin (-(2 / 3))) := by
    simp [max_drawdown_float, runningMax, seriesMinF, ddEntryF, qmax, qmin, fvalMin]
    norm_num
  refine ⟨⟨by norm_num, C5_float_drawdown_properties.2.2.2.1 1 (by norm_num)⟩,
    ⟨by simp [List.chain'_cons], ⟨1, by simp, by norm_num⟩,
      C5_float_drawdown_properties.2.2.1 [(1 : ℚ), 2] (by simp [List.chain'_cons])
        ⟨1, by simp, by norm_num⟩⟩,
    h31, C5_float_drawdown_properties.2.1 [(3 : ℚ), 1] (-(2 / 3)) h31⟩

end StrategySim
